import Mathlib

/-!
Verification development for the k8s-nft-npc NetworkPolicy controller.

The Go sources are shallowly embedded:
  * package `ranges` (ranges.go) as the namespace `Ranges`: the
    `treemap.TreeMap[T, T]` is represented by its sorted association list
    (interval start → interval end, ascending by start), and the iterator
    based `Add`/`Subtract` algorithms are translated structurally
    (`LowerBound` becomes a split of the sorted list at the first key that
    is not less than the probe).
  * package `nftctrl` (pod.go, nwp.go, ns.go, controller.go) as the
    namespace `Nftctrl`: Go maps become association lists, pointers to
    `Pod`/`Policy` become their map keys, pointers to `Rule` and the
    nftables objects become numeric ids handed out by a counter, and the
    `nfds` dual-family transaction sink becomes an explicit ruleset state
    (chains with ordered rules, named sets with elements) plus an append
    only operation log.
  * Kubernetes library boundaries (`labels.Selector`,
    `LabelSelectorAsSelector`, `netip.ParsePrefix`) are represented by
    their observable results: a compiled selector is either the `Nothing`
    selector or a list of equality requirements, and a CIDR string is
    represented by its parse outcome (an address range, or none for an
    unparseable string).
-/

set_option linter.unusedVariables false
set_option linter.dupNamespace false

namespace Ranges

/-- Go `ranges.Range[T]`: an inclusive interval from `Start` to `End`. -/
structure Rg (T : Type) where
  Start : T
  End : T
deriving DecidableEq, Repr

/-- The treemap of `ranges.Ranges[T]`, represented as its sorted association
list: each entry maps an interval start (the treemap key) to the interval
end (the value), in ascending key order. -/
abbrev TMap (T : Type) := List (T × T)

/-- `r.t.LowerBound(a.Start)` on the sorted treemap: splits the entries into
those strictly before the iterator position (keys `less` than `S`) and the
entries from the iterator position on. -/
def lowerBoundSplit {T : Type} (less : T → T → Bool) (S : T) : TMap T → TMap T × TMap T
  | [] => ([], [])
  | (k, v) :: rest =>
    if less k S then
      ((k, v) :: (lowerBoundSplit less S rest).1, (lowerBoundSplit less S rest).2)
    else ([], (k, v) :: rest)

/-- The forward loop of `Ranges.Add` (ranges.go lines 119-130): consume
entries whose key does not exceed the accumulated end `e`, extending `e` to
each consumed entry's value when that is larger (these entries are collected
in `keysToRemove` and deleted); stop at the first entry whose key is past
`e`. Returns the final accumulated end and the remaining entries. -/
def addLoop {T : Type} (less : T → T → Bool) (e : T) : TMap T → T × TMap T
  | [] => (e, [])
  | (k, v) :: rest =>
    if less e k then (e, (k, v) :: rest)
    else addLoop less (if less e v then v else e) rest

/-- Go `Ranges.Add` (ranges.go lines 95-135). `assertValid` (the caller must
not pass `End < Start`) is a hypothesis of the theorems below rather than a
run-time panic. Note the Go code checks overlap with the predecessor by
`!less(prev.end, a.Start)` only, so an exactly adjacent predecessor or
successor is NOT coalesced (the `TODO: exact adjacency not getting joined`
comments in the source). -/
def Add {T : Type} (less : T → T → Bool) (t : TMap T) (a : Rg T) : TMap T :=
  if t.isEmpty then [(a.Start, a.End)]
  else
    let s := lowerBoundSplit less a.Start t
    match s.1.getLast? with
    | some (pk, pv) =>
      if !(less pv a.End) then t
      else if !(less pv a.Start) then
        let m := addLoop less a.End s.2
        s.1.dropLast ++ (pk, m.1) :: m.2
      else
        let m := addLoop less a.End s.2
        s.1 ++ (a.Start, m.1) :: m.2
    | none =>
      let m := addLoop less a.End s.2
      (a.Start, m.1) :: m.2

/-- The forward loop of `Ranges.Subtract` (ranges.go lines 78-92): drop
entries fully covered by the subtracted range; when the subtracted range
ends inside an entry, shrink that entry down to start at
`closest(a.End, false)`; stop at the first entry whose key is past the
subtracted end. -/
def subLoop {T : Type} (less : T → T → Bool) (closest : T → Bool → T) (e : T) :
    TMap T → TMap T
  | [] => []
  | (k, v) :: rest =>
    if less e k then (k, v) :: rest
    else if less e v then (closest e false, v) :: rest
    else subLoop less closest e rest

/-- Go `Ranges.Subtract` (ranges.go lines 55-93). If the predecessor entry
overlaps the subtracted start it is truncated to end at
`closest(a.Start, true)`; if it also strictly covers the subtracted end, it
is split and the function returns at once. -/
def Subtract {T : Type} (less : T → T → Bool) (closest : T → Bool → T)
    (t : TMap T) (a : Rg T) : TMap T :=
  if t.isEmpty then []
  else
    let s := lowerBoundSplit less a.Start t
    match s.1.getLast? with
    | some (pk, pv) =>
      if !(less pv a.Start) then
        if less a.End pv then
          s.1.dropLast ++ (pk, closest a.Start true) :: (closest a.End false, pv) :: s.2
        else
          s.1.dropLast ++ (pk, closest a.Start true) :: subLoop less closest a.End s.2
      else s.1 ++ subLoop less closest a.End s.2
    | none => subLoop less closest a.End s.2

/-- Go `Ranges.Len`. -/
def Len {T : Type} (t : TMap T) : Nat := t.length

/-- Go `defaultCompare` instantiated at `int` (as used by `ranges.New[int]()`). -/
def intLess (a b : Int) : Bool := decide (a < b)

/-- Go `defaultClosest` instantiated at `int`. -/
def intClosest (a : Int) (before : Bool) : Int := if before then a - 1 else a + 1

/-- `ranges.New[int]().Add` on the represented treemap. -/
def IAdd (t : TMap Int) (a : Rg Int) : TMap Int := Add intLess t a

/-- `ranges.New[int]().Subtract` on the represented treemap. -/
def ISub (t : TMap Int) (a : Rg Int) : TMap Int := Subtract intLess intClosest t a

/-- The point is covered by one of the iterated intervals (each interval is
inclusive on both ends, as in the fuzz oracle `trivialRanges`). -/
def covers (t : TMap Int) (x : Int) : Bool :=
  t.any fun p => decide (p.1 ≤ x) && decide (x ≤ p.2)

/-- Propositional form of `covers`. -/
def CoversP (t : TMap Int) (x : Int) : Prop :=
  ∃ p ∈ t, p.1 ≤ x ∧ x ≤ p.2

/-- Structural invariant actually maintained by the code: every interval is
non-empty (`start ≤ end`) and the intervals are sorted and pairwise disjoint
(each interval ends strictly before any later one starts). Exact adjacency
(`p.2 + 1 = q.1`) is NOT excluded: `Add` does not join touching intervals. -/
def intervalsOK (t : TMap Int) : Prop :=
  (∀ p ∈ t, p.1 ≤ p.2) ∧ t.Pairwise fun p q : Int × Int => p.2 < q.1

/-- The stronger invariant asserted by the repository's own fuzz test
(`FuzzRanges` errors when `lastEnd+1 >= it.Item().Start`) and by the spec:
intervals are non-empty, disjoint, and non-adjacent. -/
def intervalsSpecOK (t : TMap Int) : Prop :=
  (∀ p ∈ t, p.1 ≤ p.2) ∧ t.Pairwise fun p q : Int × Int => p.2 + 1 < q.1

instance (t : TMap Int) : Decidable (intervalsOK t) := by
  unfold intervalsOK; infer_instance

instance (t : TMap Int) : Decidable (intervalsSpecOK t) := by
  unfold intervalsSpecOK; infer_instance

instance (t : TMap Int) (x : Int) : Decidable (CoversP t x) := by
  unfold CoversP; infer_instance

theorem iadd_example_fresh : IAdd [] ⟨0, 2⟩ = [(0, 2)] := by decide

theorem iadd_example_adjacent : IAdd (IAdd [] ⟨0, 2⟩) ⟨3, 5⟩ = [(0, 2), (3, 5)] := by decide

theorem iadd_example_overlap : IAdd (IAdd [] ⟨0, 2⟩) ⟨2, 5⟩ = [(0, 5)] := by decide

theorem iadd_example_subsume : IAdd (IAdd [] ⟨4, 5⟩) ⟨0, 9⟩ = [(0, 9)] := by decide

theorem isub_example_middle : ISub (IAdd [] ⟨0, 10⟩) ⟨3, 5⟩ = [(0, 2), (6, 10)] := by decide

theorem isub_example_left : ISub (IAdd [] ⟨0, 10⟩) ⟨0, 5⟩ = [(6, 10)] := by decide

theorem isub_example_span : ISub (IAdd (IAdd [] ⟨0, 3⟩) ⟨6, 8⟩) ⟨2, 7⟩ = [(0, 1), (8, 8)] := by decide

theorem covers_iff (t : TMap Int) (x : Int) : covers t x = true ↔ CoversP t x := by
  simp [covers, CoversP, List.any_eq_true]

theorem coversP_append (l₁ l₂ : TMap Int) (x : Int) :
    CoversP (l₁ ++ l₂) x ↔ CoversP l₁ x ∨ CoversP l₂ x := by
  constructor
  · rintro ⟨p, hp, hc⟩
    rcases List.mem_append.mp hp with h | h
    · exact Or.inl ⟨p, h, hc⟩
    · exact Or.inr ⟨p, h, hc⟩
  · rintro (⟨p, hp, hc⟩ | ⟨p, hp, hc⟩)
    · exact ⟨p, List.mem_append.mpr (Or.inl hp), hc⟩
    · exact ⟨p, List.mem_append.mpr (Or.inr hp), hc⟩

theorem coversP_cons (p : Int × Int) (l : TMap Int) (x : Int) :
    CoversP (p :: l) x ↔ (p.1 ≤ x ∧ x ≤ p.2) ∨ CoversP l x := by
  simp [CoversP]

theorem coversP_nil (x : Int) : ¬ CoversP [] x := by simp [CoversP]

theorem lbs_append (S : Int) (t : TMap Int) :
    (lowerBoundSplit intLess S t).1 ++ (lowerBoundSplit intLess S t).2 = t := by
  induction t with
  | nil => rfl
  | cons p rest ih =>
    obtain ⟨k, v⟩ := p
    simp only [lowerBoundSplit]
    split
    · simpa using ih
    · rfl

theorem lbs_pre_keys (S : Int) (t : TMap Int) :
    ∀ p ∈ (lowerBoundSplit intLess S t).1, p.1 < S := by
  induction t with
  | nil => simp [lowerBoundSplit]
  | cons q rest ih =>
    obtain ⟨k, v⟩ := q
    simp only [lowerBoundSplit]
    split
    · rename_i hk
      intro p hp
      rcases List.mem_cons.mp hp with h | h
      · subst h; exact of_decide_eq_true hk
      · exact ih p h
    · simp

theorem lbs_post_keys (S : Int) (t : TMap Int) :
    ∀ k v rest, (lowerBoundSplit intLess S t).2 = (k, v) :: rest → S ≤ k := by
  induction t with
  | nil => simp [lowerBoundSplit]
  | cons q rest ih =>
    obtain ⟨k', v'⟩ := q
    simp only [lowerBoundSplit]
    split
    · exact ih
    · rename_i hk
      intro k v r h
      cases h
      simp only [intLess, decide_eq_true_eq] at hk
      omega

/-- In a chain of valid, pairwise-disjoint intervals whose first key is at
least `S`, every key is at least `S`. -/
theorem keys_ge (S k v : Int) (rest : TMap Int)
    (hval : ∀ p ∈ (k, v) :: rest, p.1 ≤ p.2)
    (hpw : ((k, v) :: rest).Pairwise fun p q : Int × Int => p.2 < q.1)
    (hk : S ≤ k) : ∀ p ∈ (k, v) :: rest, S ≤ p.1 := by
  intro p hp
  rcases List.mem_cons.mp hp with h | h
  · subst h; exact hk
  · have h1 := (List.pairwise_cons.mp hpw).1 p h
    have h2 := hval (k, v) (List.mem_cons_self _ _)
    simp at h2
    omega

theorem getLast?_decomp {α : Type} (l : List α) (p : α) (h : l.getLast? = some p) :
    l = l.dropLast ++ [p] := by
  induction l with
  | nil => simp at h
  | cons a rest ih =>
    cases rest with
    | nil => simp_all
    | cons b r =>
      have h' : (b :: r).getLast? = some p := by
        rw [← h]; simp [List.getLast?]
      have := ih h'
      calc a :: b :: r = a :: ((b :: r).dropLast ++ [p]) := by rw [← this]
        _ = (a :: b :: r).dropLast ++ [p] := by simp

/-- Master lemma for `addLoop`: starting from the accumulating interval
`[B, e]` (with every remaining key at least `B`), the loop returns a final
end `e'` with `e ≤ e'`, a valid disjoint tail whose keys all lie strictly
past `e'`, and the union of the consumed intervals with `[B, e]` is exactly
`[B, e']`. -/
theorem addLoop_spec (B : Int) :
    ∀ (l : TMap Int) (e : Int),
      (∀ p ∈ l, p.1 ≤ p.2) →
      l.Pairwise (fun p q : Int × Int => p.2 < q.1) →
      (∀ p ∈ l, B ≤ p.1) → B ≤ e →
      e ≤ (addLoop intLess e l).1 ∧
      (∀ p ∈ (addLoop intLess e l).2, p.1 ≤ p.2) ∧
      (addLoop intLess e l).2.Pairwise (fun p q : Int × Int => p.2 < q.1) ∧
      (∀ p ∈ (addLoop intLess e l).2, (addLoop intLess e l).1 < p.1) ∧
      (∀ x, (CoversP l x ∨ (B ≤ x ∧ x ≤ e)) ↔
            (CoversP (addLoop intLess e l).2 x ∨ (B ≤ x ∧ x ≤ (addLoop intLess e l).1))) := by
  intro l
  induction l with
  | nil =>
    intro e _ _ _ _
    simp [addLoop, coversP_nil]
  | cons q rest ih =>
    obtain ⟨k, v⟩ := q
    intro e hval hpw hge hBe
    have hkv : k ≤ v := by simpa using hval (k, v) (List.mem_cons_self _ _)
    have hBk : B ≤ k := by simpa using hge (k, v) (List.mem_cons_self _ _)
    have hrestval : ∀ p ∈ rest, p.1 ≤ p.2 := fun p hp => hval p (List.mem_cons_of_mem _ hp)
    have hrestpw := (List.pairwise_cons.mp hpw).2
    have hheadpw := (List.pairwise_cons.mp hpw).1
    have hrestge : ∀ p ∈ rest, B ≤ p.1 := fun p hp => hge p (List.mem_cons_of_mem _ hp)
    simp only [addLoop]
    split
    · rename_i hlt
      have hek : e < k := of_decide_eq_true hlt
      refine ⟨le_refl _, hval, hpw, ?_, fun x => Iff.rfl⟩
      intro p hp
      rcases List.mem_cons.mp hp with h | h
      · subst h; exact hek
      · have := hheadpw p h; omega
    · rename_i hnlt
      have hke : k ≤ e := by simpa [intLess] using hnlt
      set e₁ : Int := if intLess e v then v else e with he₁
      have he₁' : e₁ = max e v := by
        simp only [he₁, intLess]
        split <;> rename_i h
        · have : e < v := by simpa using h
          omega
        · have : v ≤ e := by simpa using h
          omega
      have hBe₁ : B ≤ e₁ := by omega
      obtain ⟨h1, h2, h3, h4, h5⟩ := ih e₁ hrestval hrestpw hrestge hBe₁
      refine ⟨by omega, h2, h3, h4, ?_⟩
      intro x
      refine Iff.trans ?_ (h5 x)
      rw [coversP_cons]
      constructor
      · rintro ((⟨h6, h7⟩ | hc) | ⟨h6, h7⟩)
        · have h6' : k ≤ x := h6
          have h7' : x ≤ v := h7
          exact Or.inr ⟨by omega, by omega⟩
        · exact Or.inl hc
        · exact Or.inr ⟨h6, by omega⟩
      · rintro (hc | ⟨h6, h7⟩)
        · exact Or.inl (Or.inr hc)
        · by_cases hx : x ≤ e
          · exact Or.inr ⟨h6, hx⟩
          · refine Or.inl (Or.inl ⟨show k ≤ x by omega, show x ≤ v by omega⟩)

/-- All keys at or after the lower-bound position are at least the probe. -/
theorem lbs_post_keys_all (S : Int) (t : TMap Int)
    (hval : ∀ p ∈ t, p.1 ≤ p.2)
    (hpw : t.Pairwise fun p q : Int × Int => p.2 < q.1) :
    ∀ p ∈ (lowerBoundSplit intLess S t).2, S ≤ p.1 := by
  have hsplit := lbs_append S t
  rw [← hsplit] at hval hpw
  have hvalpost : ∀ p ∈ (lowerBoundSplit intLess S t).2, p.1 ≤ p.2 :=
    fun p hp => hval p (List.mem_append.mpr (Or.inr hp))
  have hpwpost := (List.pairwise_append.mp hpw).2.1
  rcases hpost : (lowerBoundSplit intLess S t).2 with _ | ⟨⟨k, v⟩, r⟩
  · simp
  · rw [hpost] at hvalpost hpwpost
    exact keys_ge S k v r hvalpost hpwpost (lbs_post_keys S t k v r hpost)


/-- Correctness of `Ranges.Add` on integers: the structural invariant is
preserved and the covered set grows by exactly the added closed interval. -/
theorem IAdd_spec (t : TMap Int) (a : Rg Int) (hok : intervalsOK t)
    (hv : a.Start ≤ a.End) :
    intervalsOK (IAdd t a) ∧
    (∀ x, CoversP (IAdd t a) x ↔ (CoversP t x ∨ (a.Start ≤ x ∧ x ≤ a.End))) := by
  obtain ⟨hval, hpw⟩ := hok
  obtain ⟨S, E⟩ := a
  dsimp only at hv ⊢
  by_cases hemp : t = []
  · subst hemp
    refine ⟨⟨?_, ?_⟩, ?_⟩
    · simp [IAdd, Add]; omega
    · simp [IAdd, Add]
    · intro x
      simp [IAdd, Add, CoversP]
  · have hne : t.isEmpty = false := by simpa [List.isEmpty_iff] using hemp
    have hsplit := lbs_append S t
    have hprekeys := lbs_pre_keys S t
    have hpostge := lbs_post_keys_all S t hval hpw
    set pre := (lowerBoundSplit intLess S t).1 with hpre
    set post := (lowerBoundSplit intLess S t).2 with hpost
    have hval' := hval
    have hpw' := hpw
    rw [← hsplit] at hval' hpw'
    have hvalpre : ∀ p ∈ pre, p.1 ≤ p.2 :=
      fun p hp => hval' p (List.mem_append.mpr (Or.inl hp))
    have hvalpost : ∀ p ∈ post, p.1 ≤ p.2 :=
      fun p hp => hval' p (List.mem_append.mpr (Or.inr hp))
    have hpwpre := (List.pairwise_append.mp hpw').1
    have hpwpost := (List.pairwise_append.mp hpw').2.1
    have hcovsplit : ∀ x, CoversP t x ↔ (CoversP pre x ∨ CoversP post x) := by
      intro x; rw [← hsplit]; exact coversP_append pre post x
    unfold IAdd Add
    rw [if_neg (by simp [hne])]
    simp only [← hpre, ← hpost]
    split
    · -- predecessor (pk, pv) exists
      rename_i pk pv hlast
      have hdecomp := getLast?_decomp pre (pk, pv) hlast
      have hmem : (pk, pv) ∈ pre := by rw [hdecomp]; simp
      have hpkS : pk < S := hprekeys (pk, pv) hmem
      have hpkpv : pk ≤ pv := hvalpre (pk, pv) hmem
      have hpwpre' := hpwpre
      rw [hdecomp] at hpwpre'
      have hpre'pw := (List.pairwise_append.mp hpwpre').1
      have hpre'last : ∀ p ∈ pre.dropLast, p.2 < pk :=
        fun p hp => (List.pairwise_append.mp hpwpre').2.2 p hp (pk, pv) (by simp)
      have hvalpre' : ∀ p ∈ pre.dropLast, p.1 ≤ p.2 :=
        fun p hp => hvalpre p (by rw [hdecomp]; exact List.mem_append.mpr (Or.inl hp))
      split
      · -- pv ≥ E: range already fully covered by the predecessor
        rename_i hcov
        have hpvE : E ≤ pv := by simpa [intLess] using hcov
        refine ⟨⟨hval, hpw⟩, ?_⟩
        intro x
        constructor
        · exact fun h => Or.inl h
        · rintro (h | ⟨h6, h7⟩)
          · exact h
          · exact ⟨(pk, pv), hsplit ▸ List.mem_append.mpr (Or.inl hmem), by omega⟩
      · rename_i hcov
        have hpvE : pv < E := by simpa [intLess] using hcov
        split
        · -- pv ≥ S: coalesce with the predecessor
          rename_i hovl
          have hpvS : S ≤ pv := by simpa [intLess] using hovl
          have hpostgepk : ∀ p ∈ post, pk ≤ p.1 := fun p hp => by
            have := hpostge p hp; omega
          rcases hm : addLoop intLess E post with ⟨e', rest⟩
          obtain ⟨h1, h2, h3, h4, h5⟩ :=
            addLoop_spec pk post E hvalpost hpwpost hpostgepk (by omega)
          rw [hm] at h1 h2 h3 h4 h5
          refine ⟨⟨?_, ?_⟩, ?_⟩
          · intro p hp
            rcases List.mem_append.mp hp with h | h
            · exact hvalpre' p h
            · rcases List.mem_cons.mp h with h' | h'
              · subst h'; simp only; omega
              · exact h2 p h'
          · rw [List.pairwise_append]
            refine ⟨hpre'pw, ?_, ?_⟩
            · exact List.pairwise_cons.mpr ⟨fun q hq => h4 q hq, h3⟩
            · intro p hp q hq
              rcases List.mem_cons.mp hq with h' | h'
              · subst h'; exact hpre'last p hp
              · have hq1 := h4 q h'
                have := hpre'last p hp
                simp only at hq1 ⊢
                omega
          · intro x
            rw [coversP_append, coversP_cons, hcovsplit x]
            have h5x := h5 x
            have hprecov : CoversP pre x ↔ (CoversP pre.dropLast x ∨ (pk ≤ x ∧ x ≤ pv)) := by
              rw [hdecomp, coversP_append, coversP_cons]
              simp [CoversP]
            rw [hprecov]
            constructor
            · rintro (hc | ⟨h6, h7⟩ | hc)
              · exact Or.inl (Or.inl (Or.inl hc))
              · rcases h5x.mpr (Or.inr ⟨h6, h7⟩) with h | ⟨h8, h9⟩
                · exact Or.inl (Or.inr h)
                · by_cases hx : x ≤ E
                  · by_cases hxS : S ≤ x
                    · exact Or.inr ⟨hxS, hx⟩
                    · exact Or.inl (Or.inl (Or.inr ⟨h8, by omega⟩))
                  · omega
              · rcases h5x.mpr (Or.inl hc) with h | ⟨h8, h9⟩
                · exact Or.inl (Or.inr h)
                · by_cases hx : x ≤ E
                  · by_cases hxS : S ≤ x
                    · exact Or.inr ⟨hxS, hx⟩
                    · exact Or.inl (Or.inl (Or.inr ⟨h8, by omega⟩))
                  · omega
            · rintro (((hc | ⟨h6, h7⟩) | hc) | ⟨h6, h7⟩)
              · exact Or.inl hc
              · rcases h5x.mp (Or.inr ⟨h6, by omega⟩) with h | ⟨h8, h9⟩
                · exact Or.inr (Or.inr h)
                · exact Or.inr (Or.inl ⟨h8, h9⟩)
              · rcases h5x.mp (Or.inl hc) with h | ⟨h8, h9⟩
                · exact Or.inr (Or.inr h)
                · exact Or.inr (Or.inl ⟨h8, h9⟩)
              · rcases h5x.mp (Or.inr ⟨by omega, by omega⟩) with h | ⟨h8, h9⟩
                · exact Or.inr (Or.inr h)
                · exact Or.inr (Or.inl ⟨h8, h9⟩)
        · -- pv < S: no coalescing with the predecessor
          rename_i hovl
          have hpvS : pv < S := by simpa [intLess] using hovl
          have hpreends : ∀ p ∈ pre, p.2 < S := by
            intro p hp
            rw [hdecomp] at hp
            rcases List.mem_append.mp hp with h | h
            · have := hpre'last p h; omega
            · simp at h
              subst h
              omega
          rcases hm : addLoop intLess E post with ⟨e', rest⟩
          obtain ⟨h1, h2, h3, h4, h5⟩ :=
            addLoop_spec S post E hvalpost hpwpost hpostge hv
          rw [hm] at h1 h2 h3 h4 h5
          refine ⟨⟨?_, ?_⟩, ?_⟩
          · intro p hp
            rcases List.mem_append.mp hp with h | h
            · exact hvalpre p h
            · rcases List.mem_cons.mp h with h' | h'
              · subst h'; simp only; omega
              · exact h2 p h'
          · rw [List.pairwise_append]
            refine ⟨hpwpre, ?_, ?_⟩
            · exact List.pairwise_cons.mpr ⟨fun q hq => h4 q hq, h3⟩
            · intro p hp q hq
              rcases List.mem_cons.mp hq with h' | h'
              · subst h'; exact hpreends p hp
              · have hq1 := h4 q h'
                have := hpreends p hp
                simp only at hq1 ⊢
                omega
          · intro x
            rw [coversP_append, coversP_cons, hcovsplit x]
            have h5x := h5 x
            constructor
            · rintro (hc | ⟨h6, h7⟩ | hc)
              · exact Or.inl (Or.inl hc)
              · rcases h5x.mpr (Or.inr ⟨h6, h7⟩) with h | h
                · exact Or.inl (Or.inr h)
                · exact Or.inr h
              · rcases h5x.mpr (Or.inl hc) with h | h
                · exact Or.inl (Or.inr h)
                · exact Or.inr h
            · rintro ((hc | hc) | ⟨h6, h7⟩)
              · exact Or.inl hc
              · rcases h5x.mp (Or.inl hc) with h | h
                · exact Or.inr (Or.inr h)
                · exact Or.inr (Or.inl h)
              · rcases h5x.mp (Or.inr ⟨h6, h7⟩) with h | h
                · exact Or.inr (Or.inr h)
                · exact Or.inr (Or.inl h)
    · -- no predecessor: pre is empty, t = post
      rename_i hlast
      have hprenil : pre = [] := List.getLast?_eq_none_iff.mp hlast
      rcases hm : addLoop intLess E post with ⟨e', rest⟩
      obtain ⟨h1, h2, h3, h4, h5⟩ :=
        addLoop_spec S post E hvalpost hpwpost hpostge hv
      rw [hm] at h1 h2 h3 h4 h5
      refine ⟨⟨?_, ?_⟩, ?_⟩
      · intro p hp
        rcases List.mem_cons.mp hp with h | h
        · subst h; simp only; omega
        · exact h2 p h
      · exact List.pairwise_cons.mpr ⟨fun q hq => h4 q hq, h3⟩
      · intro x
        rw [coversP_cons, hcovsplit x, hprenil]
        have h5x := h5 x
        constructor
        · rintro (⟨h6, h7⟩ | hc)
          · rcases h5x.mpr (Or.inr ⟨h6, h7⟩) with h | h
            · exact Or.inl (Or.inr h)
            · exact Or.inr h
          · rcases h5x.mpr (Or.inl hc) with h | h
            · exact Or.inl (Or.inr h)
            · exact Or.inr h
        · rintro ((hc | hc) | hc)
          · exact absurd hc (coversP_nil x)
          · rcases h5x.mp (Or.inl hc) with h | h
            · exact Or.inr h
            · exact Or.inl h
          · rcases h5x.mp (Or.inr hc) with h | h
            · exact Or.inr h
            · exact Or.inl h


theorem intClosest_true (a : Int) : intClosest a true = a - 1 := rfl

theorem intClosest_false (a : Int) : intClosest a false = a + 1 := rfl

/-- Master lemma for `subLoop`: on a valid disjoint chain whose keys are all
at least `S` (with `S ≤ e`), the loop removes exactly the points of `[S, e]`
and keeps the chain valid, disjoint, and with keys at least `S`. -/
theorem subLoop_spec (S : Int) :
    ∀ (l : TMap Int) (e : Int),
      (∀ p ∈ l, p.1 ≤ p.2) →
      l.Pairwise (fun p q : Int × Int => p.2 < q.1) →
      (∀ p ∈ l, S ≤ p.1) → S ≤ e →
      (∀ p ∈ subLoop intLess intClosest e l, p.1 ≤ p.2) ∧
      (subLoop intLess intClosest e l).Pairwise (fun p q : Int × Int => p.2 < q.1) ∧
      (∀ p ∈ subLoop intLess intClosest e l, S ≤ p.1) ∧
      (∀ x, CoversP (subLoop intLess intClosest e l) x ↔
            (CoversP l x ∧ ¬(S ≤ x ∧ x ≤ e))) := by
  intro l
  induction l with
  | nil =>
    intro e _ _ _ _
    simp [subLoop, coversP_nil]
  | cons q rest ih =>
    obtain ⟨k, v⟩ := q
    intro e hval hpw hge hSe
    have hkv : k ≤ v := by simpa using hval (k, v) (List.mem_cons_self _ _)
    have hSk : S ≤ k := by simpa using hge (k, v) (List.mem_cons_self _ _)
    have hrestval : ∀ p ∈ rest, p.1 ≤ p.2 := fun p hp => hval p (List.mem_cons_of_mem _ hp)
    have hrestpw := (List.pairwise_cons.mp hpw).2
    have hheadpw := (List.pairwise_cons.mp hpw).1
    have hrestge : ∀ p ∈ rest, S ≤ p.1 := fun p hp => hge p (List.mem_cons_of_mem _ hp)
    have hrestkeys : ∀ p ∈ rest, v < p.1 := hheadpw
    simp only [subLoop]
    split
    · -- e < k: subtracted range ends before this entry, nothing changes
      rename_i hlt
      have hek : e < k := by simpa [intLess] using hlt
      refine ⟨hval, hpw, hge, ?_⟩
      intro x
      constructor
      · intro hc
        refine ⟨hc, ?_⟩
        rcases hc with ⟨p, hp, h6, h7⟩
        rcases List.mem_cons.mp hp with h | h
        · subst h
          rintro ⟨h8, h9⟩
          have : k ≤ x := h6
          omega
        · have := hrestkeys p h
          rintro ⟨h8, h9⟩
          omega
      · exact fun hc => hc.1
    · rename_i hnlt
      have hke : k ≤ e := by simpa [intLess] using hnlt
      split
      · -- k ≤ e < v: shrink this entry down to start at e+1
        rename_i hlt
        have hev : e < v := by simpa [intLess] using hlt
        rw [intClosest_false]
        refine ⟨?_, ?_, ?_, ?_⟩
        · intro p hp
          rcases List.mem_cons.mp hp with h | h
          · subst h; simp only; omega
          · exact hrestval p h
        · exact List.pairwise_cons.mpr ⟨fun q hq => by
            have := hrestkeys q hq; simp only; omega, hrestpw⟩
        · intro p hp
          rcases List.mem_cons.mp hp with h | h
          · subst h; simp only; omega
          · exact hrestge p h
        · intro x
          rw [coversP_cons, coversP_cons]
          constructor
          · rintro (⟨h6, h7⟩ | hc)
            · have h6' : e + 1 ≤ x := h6
              have h7' : x ≤ v := h7
              exact ⟨Or.inl ⟨by omega, by omega⟩, by omega⟩
            · refine ⟨Or.inr hc, ?_⟩
              rcases hc with ⟨p, hp, h6, h7⟩
              have := hrestkeys p hp
              omega
          · rintro ⟨(⟨h6, h7⟩ | hc), hnin⟩
            · have h6' : k ≤ x := h6
              have h7' : x ≤ v := h7
              exact Or.inl ⟨by omega, by omega⟩
            · exact Or.inr hc
      · -- k ≤ e and v ≤ e: entry fully covered by the subtracted range, drop it
        rename_i hnlt2
        have hve : v ≤ e := by simpa [intLess] using hnlt2
        obtain ⟨h1, h2, h3, h4⟩ := ih e hrestval hrestpw hrestge hSe
        refine ⟨h1, h2, h3, ?_⟩
        intro x
        rw [h4 x, coversP_cons]
        constructor
        · rintro ⟨hc, hnin⟩
          exact ⟨Or.inr hc, hnin⟩
        · rintro ⟨(⟨h6, h7⟩ | hc), hnin⟩
          · have h6' : k ≤ x := h6
            have h7' : x ≤ v := h7
            exact absurd ⟨by omega, by omega⟩ hnin
          · exact ⟨hc, hnin⟩

/-- Correctness of `Ranges.Subtract` on integers: the structural invariant is
preserved and the covered set shrinks by exactly the subtracted interval. -/
theorem ISub_spec (t : TMap Int) (a : Rg Int) (hok : intervalsOK t)
    (hv : a.Start ≤ a.End) :
    intervalsOK (ISub t a) ∧
    (∀ x, CoversP (ISub t a) x ↔ (CoversP t x ∧ ¬(a.Start ≤ x ∧ x ≤ a.End))) := by
  obtain ⟨hval, hpw⟩ := hok
  obtain ⟨S, E⟩ := a
  dsimp only at hv ⊢
  by_cases hemp : t = []
  · subst hemp
    refine ⟨⟨by simp [ISub, Subtract], by simp [ISub, Subtract]⟩, ?_⟩
    intro x
    simp [ISub, Subtract, CoversP]
  · have hne : t.isEmpty = false := by simpa [List.isEmpty_iff] using hemp
    have hsplit := lbs_append S t
    have hprekeys := lbs_pre_keys S t
    have hpostge := lbs_post_keys_all S t hval hpw
    set pre := (lowerBoundSplit intLess S t).1 with hpre
    set post := (lowerBoundSplit intLess S t).2 with hpost
    have hval' := hval
    have hpw' := hpw
    rw [← hsplit] at hval' hpw'
    have hvalpre : ∀ p ∈ pre, p.1 ≤ p.2 :=
      fun p hp => hval' p (List.mem_append.mpr (Or.inl hp))
    have hvalpost : ∀ p ∈ post, p.1 ≤ p.2 :=
      fun p hp => hval' p (List.mem_append.mpr (Or.inr hp))
    have hpwpre := (List.pairwise_append.mp hpw').1
    have hpwpost := (List.pairwise_append.mp hpw').2.1
    have hcrossall := (List.pairwise_append.mp hpw').2.2
    have hcovsplit : ∀ x, CoversP t x ↔ (CoversP pre x ∨ CoversP post x) := by
      intro x; rw [← hsplit]; exact coversP_append pre post x
    unfold ISub Subtract
    rw [if_neg (by simp [hne])]
    simp only [← hpre, ← hpost]
    split
    · -- predecessor (pk, pv) exists
      rename_i pk pv hlast
      have hdecomp := getLast?_decomp pre (pk, pv) hlast
      have hmem : (pk, pv) ∈ pre := by rw [hdecomp]; simp
      have hpkS : pk < S := hprekeys (pk, pv) hmem
      have hpkpv : pk ≤ pv := hvalpre (pk, pv) hmem
      have hpwpre' := hpwpre
      rw [hdecomp] at hpwpre'
      have hpre'pw := (List.pairwise_append.mp hpwpre').1
      have hpre'last : ∀ p ∈ pre.dropLast, p.2 < pk :=
        fun p hp => (List.pairwise_append.mp hpwpre').2.2 p hp (pk, pv) (by simp)
      have hvalpre' : ∀ p ∈ pre.dropLast, p.1 ≤ p.2 :=
        fun p hp => hvalpre p (by rw [hdecomp]; exact List.mem_append.mpr (Or.inl hp))
      have hpostpv : ∀ q ∈ post, pv < q.1 := fun q hq => hcrossall (pk, pv) hmem q hq
      have hprecov : ∀ x, CoversP pre x ↔ (CoversP pre.dropLast x ∨ (pk ≤ x ∧ x ≤ pv)) := by
        intro x
        rw [hdecomp, coversP_append, coversP_cons]
        simp [CoversP]
      split
      · -- pv ≥ S: predecessor overlaps the subtracted start
        rename_i hovl
        have hpvS : S ≤ pv := by simpa [intLess] using hovl
        split
        · -- E < pv: split the predecessor into two and return
          rename_i hlt
          have hEpv : E < pv := by simpa [intLess] using hlt
          rw [intClosest_true, intClosest_false]
          refine ⟨⟨?_, ?_⟩, ?_⟩
          · intro p hp
            rcases List.mem_append.mp hp with h | h
            · exact hvalpre' p h
            · rcases List.mem_cons.mp h with h' | h'
              · subst h'; simp only; omega
              · rcases List.mem_cons.mp h' with h'' | h''
                · subst h''; simp only; omega
                · exact hvalpost p h''
          · rw [List.pairwise_append]
            refine ⟨hpre'pw, ?_, ?_⟩
            · rw [List.pairwise_cons]
              refine ⟨?_, ?_⟩
              · intro q hq
                rcases List.mem_cons.mp hq with h' | h'
                · subst h'; simp only; omega
                · have := hpostge q h'; simp only; omega
              · rw [List.pairwise_cons]
                refine ⟨fun q hq => by have := hpostpv q hq; simp only; omega, hpwpost⟩
            · intro p hp q hq
              have hpend := hpre'last p hp
              rcases List.mem_cons.mp hq with h' | h'
              · subst h'; simp only; omega
              · rcases List.mem_cons.mp h' with h'' | h''
                · subst h''; simp only; omega
                · have := hpostge q h''; omega
          · intro x
            rw [coversP_append, coversP_cons, coversP_cons, hcovsplit x, hprecov x]
            constructor
            · rintro (hc | ⟨h6, h7⟩ | ⟨h6, h7⟩ | hc)
              · rcases hc with ⟨p, hp, h6, h7⟩
                have := hpre'last p hp
                exact ⟨Or.inl (Or.inl ⟨p, hp, h6, h7⟩), by omega⟩
              · have h6' : pk ≤ x := h6
                have h7' : x ≤ S - 1 := h7
                exact ⟨Or.inl (Or.inr ⟨by omega, by omega⟩), by omega⟩
              · have h6' : E + 1 ≤ x := h6
                have h7' : x ≤ pv := h7
                exact ⟨Or.inl (Or.inr ⟨by omega, by omega⟩), by omega⟩
              · rcases hc with ⟨p, hp, h6, h7⟩
                have := hpostge p hp
                have := hpostpv p hp
                exact ⟨Or.inr ⟨p, hp, h6, h7⟩, by omega⟩
            · rintro ⟨(hc | ⟨h6, h7⟩) | hc, hnin⟩
              · exact Or.inl hc
              · by_cases hx : x ≤ S - 1
                · exact Or.inr (Or.inl ⟨by omega, by omega⟩)
                · exact Or.inr (Or.inr (Or.inl ⟨by omega, by omega⟩))
              · exact Or.inr (Or.inr (Or.inr hc))
        · -- pv ≤ E: truncate the predecessor, then run the removal loop
          rename_i hnlt
          have hpvE : pv ≤ E := by simpa [intLess] using hnlt
          rw [intClosest_true]
          obtain ⟨h1, h2, h3, h4⟩ := subLoop_spec S post E hvalpost hpwpost hpostge hv
          refine ⟨⟨?_, ?_⟩, ?_⟩
          · intro p hp
            rcases List.mem_append.mp hp with h | h
            · exact hvalpre' p h
            · rcases List.mem_cons.mp h with h' | h'
              · subst h'; simp only; omega
              · exact h1 p h'
          · rw [List.pairwise_append]
            refine ⟨hpre'pw, ?_, ?_⟩
            · rw [List.pairwise_cons]
              exact ⟨fun q hq => by have := h3 q hq; simp only; omega, h2⟩
            · intro p hp q hq
              have hpend := hpre'last p hp
              rcases List.mem_cons.mp hq with h' | h'
              · subst h'; simp only; omega
              · have := h3 q h'; omega
          · intro x
            rw [coversP_append, coversP_cons, hcovsplit x, hprecov x, h4 x]
            constructor
            · rintro (hc | ⟨h6, h7⟩ | ⟨hc, hnin⟩)
              · rcases hc with ⟨p, hp, h6, h7⟩
                have := hpre'last p hp
                exact ⟨Or.inl (Or.inl ⟨p, hp, h6, h7⟩), by omega⟩
              · have h6' : pk ≤ x := h6
                have h7' : x ≤ S - 1 := h7
                exact ⟨Or.inl (Or.inr ⟨by omega, by omega⟩), by omega⟩
              · exact ⟨Or.inr hc, hnin⟩
            · rintro ⟨(hc | ⟨h6, h7⟩) | hc, hnin⟩
              · exact Or.inl hc
              · exact Or.inr (Or.inl ⟨by omega, by omega⟩)
              · exact Or.inr (Or.inr ⟨hc, hnin⟩)
      · -- pv < S: predecessor untouched
        rename_i hovl
        have hpvS : pv < S := by simpa [intLess] using hovl
        have hpreends : ∀ p ∈ pre, p.2 < S := by
          intro p hp
          rw [hdecomp] at hp
          rcases List.mem_append.mp hp with h | h
          · have := hpre'last p h; omega
          · simp at h
            subst h
            omega
        obtain ⟨h1, h2, h3, h4⟩ := subLoop_spec S post E hvalpost hpwpost hpostge hv
        refine ⟨⟨?_, ?_⟩, ?_⟩
        · intro p hp
          rcases List.mem_append.mp hp with h | h
          · exact hvalpre p h
          · exact h1 p h
        · rw [List.pairwise_append]
          refine ⟨hpwpre, h2, ?_⟩
          intro p hp q hq
          have := hpreends p hp
          have := h3 q hq
          omega
        · intro x
          rw [coversP_append, hcovsplit x, h4 x]
          constructor
          · rintro (hc | ⟨hc, hnin⟩)
            · rcases hc with ⟨p, hp, h6, h7⟩
              have := hpreends p hp
              exact ⟨Or.inl ⟨p, hp, h6, h7⟩, by omega⟩
            · exact ⟨Or.inr hc, hnin⟩
          · rintro ⟨hc | hc, hnin⟩
            · exact Or.inl hc
            · exact Or.inr ⟨hc, hnin⟩
    · -- no predecessor: pre is empty, t = post
      rename_i hlast
      have hprenil : pre = [] := List.getLast?_eq_none_iff.mp hlast
      obtain ⟨h1, h2, h3, h4⟩ := subLoop_spec S post E hvalpost hpwpost hpostge hv
      refine ⟨⟨h1, h2⟩, ?_⟩
      intro x
      rw [h4 x, hcovsplit x, hprenil]
      constructor
      · rintro ⟨hc, hnin⟩
        exact ⟨Or.inr hc, hnin⟩
      · rintro ⟨hc | hc, hnin⟩
        · exact absurd hc (coversP_nil x)
        · exact ⟨hc, hnin⟩


/-- One step of the fuzz-oracle sequence (FuzzRanges in ranges_test.go):
either `dut.Add(r)` or `dut.Subtract(r)`. -/
inductive Op where
  | add (r : Rg Int)
  | sub (r : Rg Int)
deriving DecidableEq, Repr

/-- `assertValid`: the operation's range satisfies `start ≤ end`. -/
def opValid : Op → Prop
  | .add r => r.Start ≤ r.End
  | .sub r => r.Start ≤ r.End

instance (op : Op) : Decidable (opValid op) := by
  cases op <;> (unfold opValid; infer_instance)

def applyOp (t : TMap Int) : Op → TMap Int
  | .add r => IAdd t r
  | .sub r => ISub t r

/-- Running a sequence of operations on a fresh `ranges.New[int]()`. -/
def applyOps (ops : List Op) : TMap Int := ops.foldl applyOp []

/-- One step of the trivial per-element boolean bitmap oracle
(`trivialRanges` in ranges_test.go), evaluated at the point `x`. -/
def bmStep (x : Int) (b : Bool) : Op → Bool
  | .add r => b || (decide (r.Start ≤ x) && decide (x ≤ r.End))
  | .sub r => b && !(decide (r.Start ≤ x) && decide (x ≤ r.End))

/-- Whether the bitmap oracle marks the point `x` covered after running the
operation sequence from an all-false bitmap. -/
def bitmap (ops : List Op) (x : Int) : Bool := ops.foldl (bmStep x) false

theorem bool_eq_iff {a b : Bool} (h : a = true ↔ b = true) : a = b := by
  cases a <;> cases b <;> simp_all

theorem IAdd_covers_bool (t : TMap Int) (r : Rg Int) (hok : intervalsOK t)
    (hv : r.Start ≤ r.End) (x : Int) :
    covers (IAdd t r) x = (covers t x || (decide (r.Start ≤ x) && decide (x ≤ r.End))) := by
  apply bool_eq_iff
  rw [covers_iff, (IAdd_spec t r hok hv).2 x]
  simp [covers_iff]

theorem ISub_covers_bool (t : TMap Int) (r : Rg Int) (hok : intervalsOK t)
    (hv : r.Start ≤ r.End) (x : Int) :
    covers (ISub t r) x = (covers t x && !(decide (r.Start ≤ x) && decide (x ≤ r.End))) := by
  have hs := (ISub_spec t r hok hv).2 x
  apply bool_eq_iff
  rw [covers_iff, hs]
  by_cases h1 : r.Start ≤ x <;> by_cases h2 : x ≤ r.End <;>
    simp [h1, h2, covers_iff]

/-- Generalized fold correctness: starting from any state satisfying the
structural invariant, running a sequence of valid operations preserves the
invariant and tracks the bitmap oracle pointwise. -/
theorem fold_spec (ops : List Op) :
    ∀ t : TMap Int, (∀ op ∈ ops, opValid op) → intervalsOK t →
      intervalsOK (ops.foldl applyOp t) ∧
      (∀ x, covers (ops.foldl applyOp t) x = ops.foldl (bmStep x) (covers t x)) := by
  induction ops with
  | nil => exact fun t _ hok => ⟨hok, fun x => rfl⟩
  | cons op rest ih =>
    intro t hvalid hok
    have hopv : opValid op := hvalid op (List.mem_cons_self _ _)
    have hrest : ∀ o ∈ rest, opValid o := fun o ho => hvalid o (List.mem_cons_of_mem _ ho)
    have hok' : intervalsOK (applyOp t op) := by
      cases op with
      | add r => exact (IAdd_spec t r hok hopv).1
      | sub r => exact (ISub_spec t r hok hopv).1
    have hcv : ∀ x, covers (applyOp t op) x = bmStep x (covers t x) op := by
      intro x
      cases op with
      | add r => exact IAdd_covers_bool t r hok hopv x
      | sub r => exact ISub_covers_bool t r hok hopv x
    obtain ⟨h1, h2⟩ := ih (applyOp t op) hrest hok'
    refine ⟨h1, ?_⟩
    intro x
    rw [List.foldl_cons, List.foldl_cons, h2 x, hcv x]

/-- The structural invariant holds after every valid operation sequence. -/
theorem applyOps_ok (ops : List Op) (h : ∀ op ∈ ops, opValid op) :
    intervalsOK (applyOps ops) :=
  (fold_spec ops [] h ⟨by simp, by simp⟩).1

/-- The represented set and the bitmap oracle agree on every point after
every valid operation sequence. -/
theorem applyOps_covers (ops : List Op) (h : ∀ op ∈ ops, opValid op) (x : Int) :
    covers (applyOps ops) x = bitmap ops x :=
  (fold_spec ops [] h ⟨by simp, by simp⟩).2 x

end Ranges

namespace Nftctrl

/-! ### Kubernetes library boundary -/

/-- `labels.Set` / `map[string]string`: an association list with no duplicate
keys (Go map iteration order is fixed to list order in this model). -/
abbrev Labels := List (String × String)

/-- Association-list lookup (Go map read `m[k]`). -/
def getA {α β : Type} [BEq α] (m : List (α × β)) (k : α) : Option β := m.lookup k

/-- Go map write `m[k] = v`: overwrite in place, else append. -/
def setA {α β : Type} [BEq α] (m : List (α × β)) (k : α) (v : β) : List (α × β) :=
  if (m.lookup k).isSome then m.map fun p => if p.1 == k then (k, v) else p
  else m ++ [(k, v)]

/-- Go map delete `delete(m, k)`. -/
def delA {α β : Type} [BEq α] (m : List (α × β)) (k : α) : List (α × β) :=
  m.filter fun p => !(p.1 == k)

/-- Go set insert `m[k] = struct{}{}` on a key list. -/
def insSet {α : Type} [BEq α] (l : List α) (k : α) : List α :=
  if l.contains k then l else l ++ [k]

/-- Go set delete on a key list. -/
def delSet' {α : Type} [BEq α] (l : List α) (k : α) : List α :=
  l.filter fun x => !(x == k)

/-- A compiled `labels.Selector`: either the shared `labels.Nothing()`
instance, or an internal selector carrying a list of equality requirements
(`key = value`); `labels.Everything()` is the empty requirement list. -/
inductive Selector where
  | nothing
  | reqs (rs : List (String × String))
deriving DecidableEq, Repr

/-- `labels.Selector.Matches`: `Nothing` matches no label set; a requirement
selector matches when every required key is present with the required value. -/
def Selector.Matches : Selector → Labels → Bool
  | .nothing, _ => false
  | .reqs rs, lbls => rs.all fun kv => getA lbls kv.1 == some kv.2

/-- A `*metav1.LabelSelector` at the API boundary, represented by its
compilation outcome: `valid reqs` stands for a selector whose
`matchLabels`/`matchExpressions` compile to the equality requirements
`reqs`, `invalid` for one on which `LabelSelectorAsSelector` errors. -/
inductive KSel where
  | valid (rs : List (String × String))
  | invalid
deriving DecidableEq, Repr

/-- `metav1.LabelSelectorAsSelector`: nil compiles to `labels.Nothing()`,
a valid selector to its requirements (empty list = `labels.Everything()`),
an invalid one to an error (`none`). -/
def asSelector : Option KSel → Option Selector
  | none => some .nothing
  | some (.valid rs) => some (.reqs rs)
  | some .invalid => none

/-! ### Addresses (`netip.Addr` as its byte slice) -/

/-- `netip.Addr`, represented by `Addr.AsSlice()`: 4 bytes for v4, 16 for v6. -/
abbrev Addr := List Nat

/-- `lessAddrs` (controller.go) = `netip.Addr.Less`: sort first by byte
length (v4 before v6), then lexicographically by bytes. -/
def lexLess : List Nat → List Nat → Bool
  | [], [] => false
  | [], _ :: _ => true
  | _ :: _, [] => false
  | a :: as, b :: bs => if a < b then true else if b < a then false else lexLess as bs

def lessAddrs (a b : Addr) : Bool :=
  if a.length = b.length then lexLess a b else decide (a.length < b.length)

/-- The byte-stepping loop of `closest` (controller.go), operating on the
reversed byte slice: decrement (`before`) with borrow, or increment with
carry, using Go byte wrap-around (`0-1 = 255`, `255+1 = 0`). -/
def closestLoop (before : Bool) : List Nat → List Nat
  | [] => []
  | b :: rest =>
    if before then
      if b = 0 then 255 :: closestLoop before rest else (b - 1) :: rest
    else
      if b = 255 then 0 :: closestLoop before rest else (b + 1) :: rest

/-- `closest` (controller.go): the immediate predecessor/successor address. -/
def closest (a : Addr) (before : Bool) : Addr := (closestLoop before a.reverse).reverse

/-- The observable result of a successful `netip.ParsePrefix` combined with
`Masked().Addr()` and `netipx.PrefixLastIP`: the inclusive address range the
CIDR covers (`prefixToRange` in controller.go). A CIDR string that fails to
parse is represented as `none` where an `Option` of this type appears. -/
abbrev Prfx := Ranges.Rg Addr

/-- `netip.Prefix.Contains` in terms of the covered range: membership in
`[Start, End]` under the `netip.Addr` order (addresses of the other family
fall outside the range, as in Go). -/
def prefixContains (p : Prfx) (x : Addr) : Bool :=
  !(lessAddrs x p.Start) && !(lessAddrs p.End x)

/-! ### The nfds dual-family transaction sink -/

/-- `direction` (exprs.go). -/
inductive direction where
  | dirIngress
  | dirEgress
deriving DecidableEq, Repr

/-- Key type descriptors of the sets the controller creates (the
`KeyType`/`KeyType6` pairs used in the sources). -/
inductive SetKeyKind where
  | ipAddr            -- TypeIPAddr / TypeIP6Addr
  | namedPortConcat   -- Concat(IPAddr, InetProto, InetService) and v6 variant
  | protoPortConcat   -- Concat(InetProto, InetService)
deriving DecidableEq, Repr

/-- Data type of a set: plain set or verdict map. -/
inductive SetDataKind where
  | noData
  | verdict
deriving DecidableEq, Repr

/-- The `nfds.Set` descriptor fields the controller uses. -/
structure SetSpec where
  Name : String := ""
  Anonymous : Bool := false
  Constant : Bool := false
  Interval : Bool := false
  IsMap : Bool := false
  Concatenation : Bool := false
  KeyKind : SetKeyKind
  DataKind : SetDataKind := .noData
deriving DecidableEq, Repr

/-- An `nftables.SetElement` as the controller builds them. -/
structure SetElem where
  Key : List Nat
  KeyEnd : List Nat := []
  IntervalEnd : Bool := false
  VerdictJumpTo : Option String := none
deriving DecidableEq, Repr

/-- A reference to a set from a rule's lookup expression: named sets are
referenced by name (as in the kernel); an anonymous set is bound to the
rule itself and is carried inline with its content. -/
inductive SetRef where
  | named (name : String)
  | anon (spec : SetSpec) (elems : List SetElem)
deriving DecidableEq, Repr

/-- Rule expressions as assembled by exprs.go / nwp.go / pod.go / the
controller setup. Register operands carry the call-site register numbers
(the constant `newRegOffset = 8` added by the expression builders is
elided uniformly). The four-expression conntrack fast path
(Ct/Bitwise/Cmp/Accept) is modeled as the single constructor
`ctEstablishedRelatedAccept`. -/
inductive NftExpr where
  | loadIP (dir : direction) (reg : Nat)
  | metaL4Proto (reg : Nat)
  | metaOIFGroup (reg : Nat)
  | metaIIFGroup (reg : Nat)
  | loadDstPort (reg : Nat)
  | cmpEq (reg : Nat) (data : List Nat)
  | lookupSet (set : SetRef) (srcReg : Nat) (destReg : Option Nat)
  | accept
  | ret
  | jump (chain : String)
  | rejectAdmin
  | ctEstablishedRelatedAccept
deriving DecidableEq, Repr

/-- One rule object in a chain; `handle` models the `*nfds.Rule` pointer
used by `DelRule`. -/
structure NftRule where
  handle : Nat
  exprs : List NftExpr
deriving DecidableEq, Repr

structure ChainObj where
  name : String
  rules : List NftRule
deriving DecidableEq, Repr

/-- A named set living in the ruleset with its current elements. Anonymous
sets are not stored here: they are bound to the rule that references them
(their content is inline in the rule's lookup expression). -/
structure SetObj where
  name : String
  spec : SetSpec
  elems : List SetElem
deriving DecidableEq, Repr

/-- The dual-family ruleset kept by the `nfds.Conn` sink (both families are
maintained in lockstep, so a single tree represents the pair). -/
structure Ruleset where
  chains : List ChainObj := []
  sets : List SetObj := []
deriving DecidableEq, Repr

/-- One staged operation of the ruleset transaction. -/
inductive NftOp where
  | addTable
  | addChain (name : String)
  | delChain (name : String)
  | addSet (spec : SetSpec) (elems : List SetElem)
  | delSet (name : String)
  | addRule (chain : String) (exprs : List NftExpr)
  | insertRule (chain : String) (exprs : List NftExpr)
  | delRule (handle : Nat)
  | setAddElements (set : String) (elems : List SetElem)
  | setDeleteElements (set : String) (elems : List SetElem)
deriving DecidableEq, Repr

/-- A recorded `corev1.Event` (`eventRecorder.Eventf`): its type
(Warning/Normal) and reason; the involved object and the formatted message
are elided. -/
structure Event where
  etype : String
  reason : String
deriving DecidableEq, Repr

/-! ### Controller data model (nftctrl structs, Go pointers as keys/ids) -/

/-- `cache.ObjectName`: (namespace, name). -/
abbrev ObjName := String × String

structure NamedPort where
  Protocol : Nat
  Port : Nat
deriving DecidableEq, Repr

structure Pod where
  Namespace : String
  ID : String
  Labels : Labels
  IPs : List Addr
  NamedPorts : List (String × NamedPort)
  ingressChain : Option String := none
  egressChain : Option String := none
  ruleRefs : List Nat := []
  ingressPolicyRefs : List (ObjName × Nat) := []
  egressPolicyRefs : List (ObjName × Nat) := []
deriving DecidableEq, Repr

structure RuleNamedPortMeta where
  PortName : String
  Protocol : Nat
deriving DecidableEq, Repr

structure RuleNumberedPortMeta where
  Protocol : Nat
  Port : Nat
  EndPort : Nat
deriving DecidableEq, Repr

/-- `RuleNumberedPortMeta.NeedsInterval` (nwp.go). -/
def RuleNumberedPortMeta.NeedsInterval (nm : RuleNumberedPortMeta) : Bool :=
  nm.Port != nm.EndPort && !(nm.Port == 0 && nm.EndPort == 65535)

structure PodSelector where
  NamespaceSelector : Selector
  PodSelector : Selector
deriving DecidableEq, Repr

/-- `nftctrl.Rule`: named sets are referenced by their (unique) names;
`podRefs` holds the keys of the referencing pods. -/
structure Rule where
  Namespace : String
  PodSelectors : List PodSelector := []
  PodIPSet : Option String := none
  NamedPortMeta : List RuleNamedPortMeta := []
  NamedPortSet : Option String := none
  podRefs : List ObjName := []
deriving DecidableEq, Repr

structure Policy where
  Namespace : String
  Name : String
  PodSelector : Selector
  IngressRuleMeta : List Nat := []
  EgressRuleMeta : List Nat := []
  ingressChain : Option String := none
  egressChain : Option String := none
  podRefs : List ObjName := []
deriving DecidableEq, Repr

structure Namespace where
  Name : String
  Labels : Labels
deriving DecidableEq, Repr

/-- The whole model state: the `Controller` maps, the heap of `*Rule`
objects (`ruleStore`, ids handed out by `fresh`), the staged ruleset, the
append-only operation log and the recorded events. -/
structure St where
  nwps : List (ObjName × Policy) := []
  rules : List Nat := []
  ruleStore : List (Nat × Rule) := []
  pods : List (ObjName × Pod) := []
  namespaces : List (String × Namespace) := []
  ruleset : Ruleset := {}
  fresh : Nat := 0
  log : List NftOp := []
  events : List Event := []
deriving DecidableEq, Repr

/-! ### Transaction primitives (nfds) -/

def recordEvent (st : St) (etype reason : String) : St :=
  { st with events := st.events ++ [⟨etype, reason⟩] }

def addChainOp (st : St) (name : String) : St :=
  { st with
    ruleset := { st.ruleset with chains := st.ruleset.chains ++ [⟨name, []⟩] }
    log := st.log ++ [.addChain name] }

def delChainOp (st : St) (name : String) : St :=
  { st with
    ruleset := { st.ruleset with chains := st.ruleset.chains.filter fun c => !(c.name == name) }
    log := st.log ++ [.delChain name] }

/-- `AddRule`: append a rule to the chain, returning its handle. -/
def addRuleOp (st : St) (chain : String) (exprs : List NftExpr) : St × Nat :=
  let h := st.fresh
  ({ st with
     ruleset := { st.ruleset with chains := st.ruleset.chains.map fun c =>
       if c.name == chain then { c with rules := c.rules ++ [⟨h, exprs⟩] } else c }
     fresh := st.fresh + 1
     log := st.log ++ [.addRule chain exprs] }, h)

/-- `InsertRule`: insert a rule at the top of the chain, returning its handle. -/
def insertRuleOp (st : St) (chain : String) (exprs : List NftExpr) : St × Nat :=
  let h := st.fresh
  ({ st with
     ruleset := { st.ruleset with chains := st.ruleset.chains.map fun c =>
       if c.name == chain then { c with rules := ⟨h, exprs⟩ :: c.rules } else c }
     fresh := st.fresh + 1
     log := st.log ++ [.insertRule chain exprs] }, h)

def delRuleOp (st : St) (h : Nat) : St :=
  { st with
    ruleset := { st.ruleset with chains := st.ruleset.chains.map fun c =>
      { c with rules := c.rules.filter fun r => !(r.handle == h) } }
    log := st.log ++ [.delRule h] }

/-- `AddSet`: named sets enter the ruleset state; anonymous sets are only
logged here (they are carried inline by the rule that looks them up). -/
def addSetOp (st : St) (spec : SetSpec) (elems : List SetElem) : St :=
  let st' := { st with log := st.log ++ [.addSet spec elems] }
  if spec.Anonymous then st'
  else { st' with ruleset := { st'.ruleset with sets := st'.ruleset.sets ++ [⟨spec.Name, spec, elems⟩] } }

def delSetOp (st : St) (name : String) : St :=
  { st with
    ruleset := { st.ruleset with sets := st.ruleset.sets.filter fun s => !(s.name == name) }
    log := st.log ++ [.delSet name] }

def setAddElementsOp (st : St) (name : String) (elems : List SetElem) : St :=
  { st with
    ruleset := { st.ruleset with sets := st.ruleset.sets.map fun s =>
      if s.name == name then { s with elems := s.elems ++ elems } else s }
    log := st.log ++ [.setAddElements name elems] }

def setDeleteElementsOp (st : St) (name : String) (elems : List SetElem) : St :=
  { st with
    ruleset := { st.ruleset with sets := st.ruleset.sets.map fun s =>
      if s.name == name then { s with elems := elems.foldl (fun es e => es.erase e) s.elems } else s }
    log := st.log ++ [.setDeleteElements name elems] }


/-! ### pod.go -/

/-- Big-endian 16-bit encoding (`binary.BigEndian.AppendUint16`). -/
def be16 (n : Nat) : List Nat := [n / 256 % 256, n % 256]

/-- Little-endian 32-bit encoding (`binaryutil.NativeEndian.PutUint32`). -/
def le32 (n : Nat) : List Nat :=
  [n % 256, n / 256 % 256, n / 65536 % 256, n / 16777216 % 256]

/-- Go `uint16(v)` conversion of a signed integer: truncation mod 2^16. -/
def toUint16 (v : Int) : Nat := (v % 65536).toNat

/-- `Pod.vmapElements`. -/
def Pod.vmapElements (pm : Pod) (chainName : String) : List SetElem :=
  pm.IPs.map fun ip => { Key := ip, VerdictJumpTo := some chainName }

/-- `Pod.ipElements`. -/
def Pod.ipElements (pm : Pod) : List SetElem :=
  pm.IPs.map fun ip => { Key := ip }

/-- `Pod.namedPortElements` (pod.go): join the pod's named ports against
the rule's named-port requests, filtering on matching protocol; the key is
`[proto, 0, 0, 0] ++ be16(port) ++ [0, 0] ++ ip`. -/
def Pod.namedPortElements (pm : Pod) (nms : List RuleNamedPortMeta) : List SetElem :=
  (pm.IPs.map fun ip =>
    nms.filterMap fun nm =>
      match getA pm.NamedPorts nm.PortName with
      | none => none
      | some port =>
        if port.Protocol != nm.Protocol then none
        else some { Key := [nm.Protocol, 0, 0, 0] ++ be16 port.Port ++ [0, 0] ++ ip }).flatten

/-- `Pod.SemanticallyEqual` (pod.go): same identity, labels, named ports,
and IPs (each of `pm`'s IPs is in `pm2`'s IP set, with equal lengths). -/
def Pod.SemanticallyEqual (pm pm2 : Pod) : Bool :=
  if pm.Namespace != pm2.Namespace || pm.ID != pm2.ID ||
     pm.Labels.length != pm2.Labels.length || pm.IPs.length != pm2.IPs.length ||
     pm.NamedPorts.length != pm2.NamedPorts.length then false
  else
    (pm.Labels.all fun kv => getA pm2.Labels kv.1 == some kv.2) &&
    (pm.NamedPorts.all fun np =>
      match getA pm2.NamedPorts np.1 with
      | some p2 => p2 == np.2
      | none => false) &&
    (pm.IPs.all fun ip => pm2.IPs.contains ip)

/-- `objectID` (controller.go): `<namespace>_<name>`, falling back to the
object UID when the combined byte length exceeds 128. -/
def objectID (ns nm uid : String) : String :=
  if ns.utf8ByteSize + 1 + nm.utf8ByteSize > 128 then uid
  else ns ++ "_" ++ nm

/-- `parseProtocol` (pod.go). -/
def parseProtocol (protocol : String) : Nat × Bool :=
  if protocol = "TCP" then (6, true)
  else if protocol = "UDP" then (17, true)
  else if protocol = "SCTP" then (132, true)
  else (0, false)

/-- `corev1.ContainerPort`: `status.phase` strings and IP parse outcomes are
carried pre-parsed (an unparseable `status.podIPs` entry is `none`). -/
structure KContainerPort where
  Name : String
  ContainerPort : Int
  Protocol : String := ""
deriving DecidableEq, Repr

structure KContainer where
  Name : String
  Ports : List KContainerPort
deriving DecidableEq, Repr

/-- The fields of a `*corev1.Pod` the controller reads. -/
structure KPod where
  Namespace : String
  Name : String
  UID : String
  Labels : Labels
  Phase : String
  PodIPs : List (Option Addr) := []
  Containers : List KContainer := []
  InitContainers : List KContainer := []
deriving DecidableEq, Repr

/-- `normalizePod` (pod.go): pods not Running/Pending contribute no IPs;
unparseable IPs are skipped (logged, no event); named ports with an
out-of-range number produce a warning event and are skipped; an unknown
protocol skips the port silently; missing protocol defaults to TCP. -/
def normalizePod (st : St) (pod : KPod) : St × Pod :=
  let ips : List Addr := pod.PodIPs.filterMap fun ip =>
    if pod.Phase != "Running" && pod.Phase != "Pending" then none
    else ip
  let acc := (pod.Containers ++ pod.InitContainers).foldl (fun acc container =>
    container.Ports.foldl (fun (acc2 : St × List (String × NamedPort)) port =>
      if port.Name != "" then
        if port.ContainerPort > 65535 then
          (recordEvent acc2.1 "Warning" "InvalidPort", acc2.2)
        else
          let proto := if port.Protocol != "" then parseProtocol port.Protocol else (6, true)
          if proto.2 then
            (acc2.1, setA acc2.2 port.Name ⟨proto.1, toUint16 port.ContainerPort⟩)
          else acc2
      else acc2) acc) ((st, []) : St × List (String × NamedPort))
  (acc.1,
   { Namespace := pod.Namespace
     ID := objectID pod.Namespace pod.Name pod.UID
     Labels := pod.Labels
     IPs := ips
     NamedPorts := acc.2 })

/-- `PodSelector.Matches` (nwp.go lines 66-80). -/
def PodSelector.Matches (sel : Nftctrl.PodSelector) (pm : Pod) (selNs : String)
    (namespaces : List (String × Namespace)) : Bool :=
  if sel.NamespaceSelector == Selector.nothing && selNs != pm.Namespace then false
  else
    match getA namespaces pm.Namespace with
    | none => false
    | some ns =>
      if sel.NamespaceSelector != Selector.nothing &&
         !(Selector.Matches sel.NamespaceSelector ns.Labels) then false
      else Selector.Matches sel.PodSelector pm.Labels

/-- `ruleSelectsPod` (pod.go lines 197-205). -/
def ruleSelectsPod (namespaces : List (String × Namespace)) (r : Rule) (pm : Pod) : Bool :=
  r.PodSelectors.any (fun sel => PodSelector.Matches sel pm r.Namespace namespaces) ||
  (r.PodSelectors.isEmpty && r.NamedPortSet.isSome)

/-- `addPodNWP` (pod.go): the policy and pod are threaded as values (the Go
code mutates them through pointers); callers store the results back. -/
def addPodNWP (st : St) (nwp : Policy) (podKey : ObjName) (pm : Pod) : St × Policy × Pod :=
  if nwp.Namespace != pm.Namespace || !(Selector.Matches nwp.PodSelector pm.Labels) then
    (st, nwp, pm)
  else
    let polKey : ObjName := (nwp.Namespace, nwp.Name)
    let a₁ :=
      match nwp.ingressChain with
      | none => (st, nwp, pm)
      | some polChainName =>
        let b₁ :=
          if pm.ingressChain.isNone then
            let cn := "pod_" ++ pm.ID ++ "_ing"
            let st := addChainOp st cn
            let st := (addRuleOp st cn [.rejectAdmin]).1
            let st := setAddElementsOp st "vmap_ing" (Pod.vmapElements pm cn)
            (st, { pm with ingressChain := some cn })
          else (st, pm)
        match b₁.2.ingressChain with
        | some cn =>
          let c₁ := insertRuleOp b₁.1 cn [.jump polChainName]
          (c₁.1, { nwp with podRefs := insSet nwp.podRefs podKey },
           { b₁.2 with ingressPolicyRefs := setA b₁.2.ingressPolicyRefs polKey c₁.2 })
        | none => (b₁.1, nwp, b₁.2)
    let st := a₁.1
    let nwp := a₁.2.1
    let pm := a₁.2.2
    match nwp.egressChain with
    | none => (st, nwp, pm)
    | some polChainName =>
      let b₂ :=
        if pm.egressChain.isNone then
          let cn := "pod_" ++ pm.ID ++ "_eg"
          let st := addChainOp st cn
          let st := (addRuleOp st cn [.rejectAdmin]).1
          let st := setAddElementsOp st "vmap_eg" (Pod.vmapElements pm cn)
          (st, { pm with egressChain := some cn })
        else (st, pm)
      match b₂.2.egressChain with
      | some cn =>
        let c₂ := insertRuleOp b₂.1 cn [.jump polChainName]
        (c₂.1, { nwp with podRefs := insSet nwp.podRefs podKey },
         { b₂.2 with egressPolicyRefs := setA b₂.2.egressPolicyRefs polKey c₂.2 })
      | none => (b₂.1, nwp, b₂.2)

/-- `removePodNWP` (pod.go): deletes the jump rule and, when the pod has no
remaining policies in a direction, the dispatch chain and its vmap entries. -/
def removePodNWP (st : St) (podKey : ObjName) (polKey : ObjName) : St :=
  match getA st.pods podKey with
  | none => st
  | some p =>
    let st := match getA p.ingressPolicyRefs polKey with
      | some h => delRuleOp st h
      | none => st
    let p := { p with ingressPolicyRefs := delA p.ingressPolicyRefs polKey }
    let a₁ :=
      match p.ingressChain with
      | some cn =>
        if p.ingressPolicyRefs.isEmpty then
          let st := setDeleteElementsOp st "vmap_ing" (Pod.vmapElements p cn)
          let st := delChainOp st cn
          (st, { p with ingressChain := none })
        else (st, p)
      | none => (st, p)
    let st := a₁.1
    let p := a₁.2
    let st := match getA p.egressPolicyRefs polKey with
      | some h => delRuleOp st h
      | none => st
    let p := { p with egressPolicyRefs := delA p.egressPolicyRefs polKey }
    let a₂ :=
      match p.egressChain with
      | some cn =>
        if p.egressPolicyRefs.isEmpty then
          let st := setDeleteElementsOp st "vmap_eg" (Pod.vmapElements p cn)
          let st := delChainOp st cn
          (st, { p with egressChain := none })
        else (st, p)
      | none => (st, p)
    { a₂.1 with pods := setA a₂.1.pods podKey a₂.2 }

/-- `addPodRule` (pod.go): the rule lives in the rule store; the pod is
threaded as a value. -/
def addPodRule (st : St) (rid : Nat) (podKey : ObjName) (pm : Pod) : St × Pod :=
  match getA st.ruleStore rid with
  | none => (st, pm)
  | some r =>
    if ruleSelectsPod st.namespaces r pm then
      let pm := { pm with ruleRefs := insSet pm.ruleRefs rid }
      let r := { r with podRefs := insSet r.podRefs podKey }
      let st := { st with ruleStore := setA st.ruleStore rid r }
      let st := match r.PodIPSet with
        | some n => setAddElementsOp st n (Pod.ipElements pm)
        | none => st
      let st := match r.NamedPortSet with
        | some n => setAddElementsOp st n (Pod.namedPortElements pm r.NamedPortMeta)
        | none => st
      (st, pm)
    else (st, pm)

/-- `deletePod` (pod.go). -/
def deletePod (st : St) (podKey : ObjName) (pm : Pod) : St :=
  let st := match pm.ingressChain with
    | some cn =>
      let st := setDeleteElementsOp st "vmap_ing" (Pod.vmapElements pm cn)
      delChainOp st cn
    | none => st
  let st := pm.ingressPolicyRefs.foldl (fun st pr =>
      match getA st.nwps pr.1 with
      | some pol => { st with nwps := setA st.nwps pr.1 { pol with podRefs := delSet' pol.podRefs podKey } }
      | none => st) st
  let st := match pm.egressChain with
    | some cn =>
      let st := setDeleteElementsOp st "vmap_eg" (Pod.vmapElements pm cn)
      delChainOp st cn
    | none => st
  let st := pm.egressPolicyRefs.foldl (fun st pr =>
      match getA st.nwps pr.1 with
      | some pol => { st with nwps := setA st.nwps pr.1 { pol with podRefs := delSet' pol.podRefs podKey } }
      | none => st) st
  pm.ruleRefs.foldl (fun st rid =>
      match getA st.ruleStore rid with
      | none => st
      | some r =>
        let st := { st with ruleStore := setA st.ruleStore rid { r with podRefs := delSet' r.podRefs podKey } }
        let st := match r.PodIPSet with
          | some n => setDeleteElementsOp st n (Pod.ipElements pm)
          | none => st
        match r.NamedPortSet with
        | some n => setDeleteElementsOp st n (Pod.namedPortElements pm r.NamedPortMeta)
        | none => st) st

/-- The wiring block `SetPod` runs for a (re)created pod (pod.go repeats
these lines verbatim in the create and the update case): evaluate every
policy and every rule against the normalized pod, then store it. -/
def setPodCreate (st : St) (name : ObjName) (np : Pod) : St :=
  let b := (st.nwps.map (·.1)).foldl (fun (acc : St × Pod) polKey =>
      match getA acc.1.nwps polKey with
      | none => acc
      | some nwp =>
        let r := addPodNWP acc.1 nwp name acc.2
        ({ r.1 with nwps := setA r.1.nwps polKey r.2.1 }, r.2.2)) (st, np)
  let c := b.1.rules.foldl (fun (acc : St × Pod) rid =>
      addPodRule acc.1 rid name acc.2) (b.1, b.2)
  { c.1 with pods := setA c.1.pods name c.2 }

/-- `SetPod` (pod.go). -/
def SetPod (st : St) (name : ObjName) (pod : Option KPod) : St :=
  match getA st.pods name, pod with
  | none, some pod =>
    let a := normalizePod st pod
    setPodCreate a.1 name a.2
  | some syncedPod, none =>
    let st := deletePod st name syncedPod
    { st with pods := delA st.pods name }
  | some syncedPod, some pod =>
    let a := normalizePod st pod
    if Pod.SemanticallyEqual a.2 syncedPod then a.1
    else
      let st := deletePod a.1 name syncedPod
      let st := { st with pods := delA st.pods name }
      setPodCreate st name a.2
  | none, none => st


/-! ### ns.go -/

/-- `Namespace.SemanticallyEqual` (ns.go). -/
def Namespace.SemanticallyEqual (ns ns2 : Namespace) : Bool :=
  if ns.Name != ns2.Name || ns.Labels.length != ns2.Labels.length then false
  else ns.Labels.all fun kv => getA ns2.Labels kv.1 == some kv.2

/-- `reevalPodInRule` (ns.go). -/
def reevalPodInRule (st : St) (podKey : ObjName) (rid : Nat) : St :=
  match getA st.pods podKey, getA st.ruleStore rid with
  | some p, some r =>
    let isSelected := ruleSelectsPod st.namespaces r p
    let wasSelected := r.podRefs.contains podKey
    if isSelected && !wasSelected then
      let p := { p with ruleRefs := insSet p.ruleRefs rid }
      let r := { r with podRefs := insSet r.podRefs podKey }
      let st := { st with pods := setA st.pods podKey p
                          ruleStore := setA st.ruleStore rid r }
      let st := match r.PodIPSet with
        | some n => setAddElementsOp st n (Pod.ipElements p)
        | none => st
      match r.NamedPortSet with
      | some n => setAddElementsOp st n (Pod.namedPortElements p r.NamedPortMeta)
      | none => st
    else if !isSelected && wasSelected then
      let p := { p with ruleRefs := delSet' p.ruleRefs rid }
      let r := { r with podRefs := delSet' r.podRefs podKey }
      let st := { st with pods := setA st.pods podKey p
                          ruleStore := setA st.ruleStore rid r }
      let st := match r.PodIPSet with
        | some n => setDeleteElementsOp st n (Pod.ipElements p)
        | none => st
      match r.NamedPortSet with
      | some n => setDeleteElementsOp st n (Pod.namedPortElements p r.NamedPortMeta)
      | none => st
    else st
  | _, _ => st

/-- `updateNS` (ns.go): for every rule, collect the pods whose membership
may have changed (per peer selector whose namespace selector is affected by
the label change) and re-evaluate each collected pod once. -/
def updateNS (st : St) (old : Option Namespace) (new : Namespace) : St :=
  st.rules.foldl (fun st rid =>
    match getA st.ruleStore rid with
    | none => st
    | some r =>
      let reevalPods : List ObjName := r.PodSelectors.foldl (fun acc sel =>
        if sel.NamespaceSelector == Selector.nothing then acc
        else
          let oldMatches := match old with
            | some o => Selector.Matches sel.NamespaceSelector o.Labels
            | none => false
          let newMatches := Selector.Matches sel.NamespaceSelector new.Labels
          if oldMatches == newMatches then acc
          else if oldMatches then
            r.podRefs.foldl (fun acc pk =>
              match getA st.pods pk with
              | some pod => if pod.Namespace == new.Name then insSet acc pk else acc
              | none => acc) acc
          else
            st.pods.foldl (fun acc pp =>
              if pp.2.Namespace == new.Name then insSet acc pp.1 else acc) acc) []
      reevalPods.foldl (fun st pk => reevalPodInRule st pk rid) st) st

/-- The fields of a `*corev1.Namespace` the controller reads. -/
structure KNamespace where
  Labels : Labels
deriving DecidableEq, Repr

/-- `SetNamespace` (ns.go). -/
def SetNamespace (st : St) (name : String) (ns : Option KNamespace) : St :=
  match getA st.namespaces name, ns with
  | none, some ns =>
    let newNS : Namespace := { Name := name, Labels := ns.Labels }
    let st := { st with namespaces := setA st.namespaces name newNS }
    updateNS st none newNS
  | some _, none =>
    { st with namespaces := delA st.namespaces name }
  | some syncedNS, some ns =>
    let newNS : Namespace := { Name := name, Labels := ns.Labels }
    if Namespace.SemanticallyEqual syncedNS newNS then st
    else
      let st := { st with namespaces := setA st.namespaces name newNS }
      updateNS st (some syncedNS) newNS
  | none, none => st

/-! ### nwp.go -/

/-- `intstr.IntOrString`. -/
inductive IntOrString where
  | int (v : Int)
  | str (s : String)
deriving DecidableEq, Repr

/-- `nwkv1.NetworkPolicyPort`. -/
structure KPort where
  Protocol : Option String := none
  Port : Option IntOrString := none
  EndPort : Option Int := none
deriving DecidableEq, Repr

/-- `nwkv1.IPBlock`, with CIDR strings represented by their parse outcome
(the covered range, or `none` for an unparseable string). -/
structure KIPBlock where
  CIDR : Option Prfx
  Except : List (Option Prfx) := []
deriving DecidableEq, Repr

/-- `nwkv1.NetworkPolicyPeer`. -/
structure KPeer where
  IPBlock : Option KIPBlock := none
  NamespaceSelector : Option KSel := none
  PodSelector : Option KSel := none
deriving DecidableEq, Repr

/-- One entry of `spec.ingress` / `spec.egress`: its peer list (`from` /
`to`) and its port list. -/
structure KRule where
  Peers : List KPeer := []
  Ports : List KPort := []
deriving DecidableEq, Repr

/-- The fields of a `*nwkv1.NetworkPolicy` the controller reads. -/
structure KNwp where
  Namespace : String
  Name : String
  PodSelector : KSel
  PolicyTypes : List String := []
  Ingress : List KRule := []
  Egress : List KRule := []
deriving DecidableEq, Repr

/-- `prefixToRange` (controller.go); prefixes are already carried as their
covered range. -/
def prefixToRange (p : Prfx) : Ranges.Rg Addr := p

/-- The inline byte-increment loop of `rangeToInterval` (controller.go),
which computes the exclusive upper bound of an interval element. -/
def incrLoop : List Nat → List Nat
  | [] => []
  | b :: rest => if b = 255 then 0 :: incrLoop rest else (b + 1) :: rest

/-- `rangeToInterval` (controller.go). -/
def rangeToInterval (p : Ranges.Rg Addr) : List SetElem :=
  [{ Key := p.Start }, { Key := (incrLoop p.End.reverse).reverse, IntervalEnd := true }]

/-- The selector-conversion tail of the peer loop in `createPeers`
(nwp.go lines 122-144): convert both selectors, warn and skip the peer if
either is invalid, drop peers whose selectors match nothing, and replace a
nil pod selector by `labels.Everything()` when a namespace selector is
present. -/
def peerSelStep (st : St) (sels : List PodSelector) (ipr : Ranges.TMap Addr)
    (src : KPeer) : St × List PodSelector × Ranges.TMap Addr :=
  match asSelector src.NamespaceSelector with
  | none => (recordEvent st "Warning" "InvalidPeer", sels, ipr)
  | some nsSel =>
    match asSelector src.PodSelector with
    | none => (recordEvent st "Warning" "InvalidPeer", sels, ipr)
    | some podSel =>
      if nsSel != Selector.nothing || podSel != Selector.nothing then
        let podSel := if podSel == Selector.nothing then Selector.reqs [] else podSel
        (st, sels ++ [⟨nsSel, podSel⟩], ipr)
      else (st, sels, ipr)

/-- One iteration of the `Except` loop inside the peer loop of
`createPeers` (nwp.go lines 107-117): an unparseable except CIDR is skipped
with a warning; one not contained in its parent records an informational
event but is still subtracted. -/
def exceptStep (p : Prfx) (acc : St × Ranges.TMap Addr) (excl : Option Prfx) :
    St × Ranges.TMap Addr :=
  match excl with
  | none => (recordEvent acc.1 "Warning" "InvalidPeer", acc.2)
  | some pExcl =>
    let st2 :=
      if !(prefixContains p pExcl.Start) || !(prefixContains p pExcl.End) then
        recordEvent acc.1 "Normal" "SuspiciousIPBlock"
      else acc.1
    (st2, Ranges.Subtract lessAddrs closest acc.2 (prefixToRange pExcl))

/-- One iteration of the peer loop in `createPeers` (nwp.go lines 90-144):
handle an `ipBlock` (reject combination with selectors, reject unparseable
CIDRs, subtract the except list warning about uncontained entries, merge
into the permitted ranges), then fall through to the selector conversion. -/
def peerStep (st : St) (sels : List PodSelector) (ipr : Ranges.TMap Addr)
    (src : KPeer) : St × List PodSelector × Ranges.TMap Addr :=
  match src.IPBlock with
  | some ib =>
    if src.NamespaceSelector.isSome then (recordEvent st "Warning" "InvalidPeer", sels, ipr)
    else if src.PodSelector.isSome then (recordEvent st "Warning" "InvalidPeer", sels, ipr)
    else
      match ib.CIDR with
      | none => (recordEvent st "Warning" "InvalidPeer", sels, ipr)
      | some p =>
        let thisBlock := Ranges.Add lessAddrs [] (prefixToRange p)
        let acc := ib.Except.foldl (exceptStep p) (st, thisBlock)
        let ipr := acc.2.foldl (fun t kv => Ranges.Add lessAddrs t ⟨kv.1, kv.2⟩) ipr
        peerSelStep acc.1 sels ipr src
  | none => peerSelStep st sels ipr src

/-- One iteration of the port loop in `createPeers` (nwp.go lines 148-201). -/
def portStep (st : St) (dyn : List RuleNamedPortMeta) (num : List RuleNumberedPortMeta)
    (port : KPort) : St × List RuleNamedPortMeta × List RuleNumberedPortMeta :=
  let protoRes : Option Nat :=
    match port.Protocol with
    | none => some 6
    | some p =>
      if p = "TCP" then some 6
      else if p = "UDP" then some 17
      else if p = "SCTP" then some 132
      else none
  match protoRes with
  | none => (recordEvent st "Warning" "InvalidPort", dyn, num)
  | some proto =>
    match port.Port with
    | none => (st, dyn, num ++ [⟨proto, 0, 65535⟩])
    | some (.str s) => (st, dyn ++ [⟨s, proto⟩], num)
    | some (.int v) =>
      if v > 65535 then (recordEvent st "Warning" "InvalidPort", dyn, num)
      else
        let startPort := toUint16 v
        match port.EndPort with
        | none => (st, dyn, num ++ [⟨proto, startPort, startPort⟩])
        | some ep =>
          if ep < v then (recordEvent st "Warning" "InvalidPort", dyn, num)
          else if ep > 65535 then (recordEvent st "Warning" "InvalidPort", dyn, num)
          else (st, dyn, num ++ [⟨proto, startPort, toUint16 ep⟩])

/-- The port-classification loop of `createPeers`. -/
def classifyPorts (st : St) (ports : List KPort) :
    St × List RuleNamedPortMeta × List RuleNumberedPortMeta :=
  ports.foldl (fun acc port => portStep acc.1 acc.2.1 acc.2.2 port) (st, [], [])

/-- `createPeers` (nwp.go lines 82-373). -/
def createPeers (st : St) (ch : String) (peers : List KPeer) (ports : List KPort)
    (pfx : String) (dir : direction) (nwpNamespace : String) : St × Rule :=
  let meta : Rule := { Namespace := nwpNamespace }
  let acc := peers.foldl (fun (acc : St × List PodSelector × Ranges.TMap Addr) src =>
      peerStep acc.1 acc.2.1 acc.2.2 src) (st, [], [])
  let st := acc.1
  let ipRangesPermitted := acc.2.2
  let meta := { meta with PodSelectors := acc.2.1 }
  let pacc := classifyPorts st ports
  let st := pacc.1
  let dynPorts := pacc.2.1
  let portProtos := pacc.2.2
  -- Handle special named ports first.
  let nacc :=
    if dynPorts.length > 0 && meta.PodSelectors.length > 0 then
      let spec : SetSpec := { Name := pfx ++ "_namedports", Concatenation := true
                              KeyKind := .namedPortConcat }
      let st := addSetOp st spec []
      let meta := { meta with NamedPortSet := some spec.Name, NamedPortMeta := dynPorts }
      let st := (addRuleOp st ch
        [.loadIP dir 0, .metaL4Proto 4, .loadDstPort 5,
         .lookupSet (.named spec.Name) 0 none, .accept]).1
      (st, meta)
    else (st, meta)
  let st := nacc.1
  let meta := nacc.2
  if portProtos.length == 0 && ports.length > 0 then (st, meta)
  else
    let eacc : St × List NftExpr :=
      if portProtos.length > 0 then
        match portProtos with
        | [] => (st, [])
        | p :: rest =>
          if rest.isEmpty && !p.NeedsInterval then
            (st,
             [.metaL4Proto 0, .cmpEq 0 [p.Protocol]] ++
             (if p.Port != 0 || p.EndPort != 65535 then
                [.loadDstPort 1, .cmpEq 1 (be16 p.Port)]
              else []))
          else if Ranges.Len ipRangesPermitted > 0 || meta.PodSelectors.length > 0 then
            let spec : SetSpec := { Anonymous := true, Constant := true
                                    Concatenation := true, Interval := true
                                    KeyKind := .protoPortConcat }
            let setElems : List SetElem := portProtos.map fun p =>
              { Key := [p.Protocol, 0, 0, 0] ++ be16 p.Port ++ [0, 0]
                KeyEnd := [p.Protocol, 0, 0, 0] ++ be16 p.EndPort ++ [0, 0] }
            let st := addSetOp st spec setElems
            (st, [.metaL4Proto 0, .loadDstPort 1, .lookupSet (.anon spec setElems) 0 none])
          else (st, [])
      else (st, [])
    let st := eacc.1
    let portProtoExprs := eacc.2
    let st :=
      if Ranges.Len ipRangesPermitted > 0 then
        let spec : SetSpec := { Anonymous := true, Constant := true, Interval := true
                                KeyKind := .ipAddr }
        let rangeElements :=
          (ipRangesPermitted.map fun kv => rangeToInterval ⟨kv.1, kv.2⟩).flatten
        let st := addSetOp st spec rangeElements
        (addRuleOp st ch
          ([.loadIP dir 0, .lookupSet (.anon spec rangeElements) 0 none] ++
           portProtoExprs ++ [.accept])).1
      else st
    if meta.PodSelectors.length > 0 then
      let spec : SetSpec := { Name := pfx ++ "_podips", KeyKind := .ipAddr }
      let st := addSetOp st spec []
      let meta := { meta with PodIPSet := some spec.Name }
      let st := (addRuleOp st ch
        ([.loadIP dir 0, .lookupSet (.named spec.Name) 0 none] ++
         portProtoExprs ++ [.accept])).1
      (st, meta)
    else (st, meta)

/-- The shared per-direction body of `createNWP` (nwp.go lines 398-451):
create the per-policy chain, compile each rule entry into it, evaluate all
pods against the new rule, and finish the chain with a return verdict. -/
def createNWPDirection (st : St) (chName : String) (rules : List KRule)
    (dir : direction) (nwpNamespace : String) : St × List Nat :=
  let st := addChainOp st chName
  let acc := rules.enum.foldl (fun (acc : St × List Nat) iRule =>
      let racc := createPeers acc.1 chName iRule.2.Peers iRule.2.Ports
          (chName ++ "_" ++ toString iRule.1) dir nwpNamespace
      let st := racc.1
      let rid := st.fresh
      let st := { st with fresh := st.fresh + 1
                          ruleStore := setA st.ruleStore rid racc.2 }
      let st := (st.pods.map (·.1)).foldl (fun st pk =>
          match getA st.pods pk with
          | none => st
          | some pod =>
            let pacc := addPodRule st rid pk pod
            { pacc.1 with pods := setA pacc.1.pods pk pacc.2 }) st
      let st := { st with rules := insSet st.rules rid }
      (st, acc.2 ++ [rid])) (st, [])
  ((addRuleOp acc.1 chName [.ret]).1, acc.2)

/-- `createNWP` (nwp.go lines 375-459). A malformed policy-level pod
selector aborts with an error before anything is staged. -/
def createNWP (st : St) (nwp : KNwp) (name : ObjName) : St × Option String :=
  match asSelector (some nwp.PodSelector) with
  | none => (st, some "bad PodSelector")
  | some podSel =>
    let isIngress := nwp.PolicyTypes.isEmpty || nwp.PolicyTypes.contains "Ingress"
    let isEgress := nwp.PolicyTypes.contains "Egress"
    let pm : Policy := { Namespace := nwp.Namespace, Name := nwp.Name, PodSelector := podSel }
    let iacc :=
      if isIngress then
        let chName := "pol_" ++ nwp.Namespace ++ "_" ++ nwp.Name ++ "_ing"
        let dacc := createNWPDirection st chName nwp.Ingress .dirIngress nwp.Namespace
        (dacc.1, { pm with IngressRuleMeta := dacc.2, ingressChain := some chName })
      else (st, pm)
    let st := iacc.1
    let pm := iacc.2
    let eacc :=
      if isEgress then
        let chName := "pol_" ++ nwp.Namespace ++ "_" ++ nwp.Name ++ "_eg"
        let dacc := createNWPDirection st chName nwp.Egress .dirEgress nwp.Namespace
        (dacc.1, { pm with EgressRuleMeta := dacc.2, egressChain := some chName })
      else (st, pm)
    let st := eacc.1
    let pm := eacc.2
    let pacc := (st.pods.map (·.1)).foldl (fun (acc : St × Policy) pk =>
        match getA acc.1.pods pk with
        | none => acc
        | some pod =>
          let r := addPodNWP acc.1 acc.2 pk pod
          ({ r.1 with pods := setA r.1.pods pk r.2.2 }, r.2.1)) (st, pm)
    ({ pacc.1 with nwps := setA pacc.1.nwps name pacc.2 }, none)

/-- `deleteRules` (nwp.go). -/
def deleteRules (st : St) (rids : List Nat) : St :=
  rids.foldl (fun st rid =>
    match getA st.ruleStore rid with
    | none => st
    | some r =>
      let st := r.podRefs.foldl (fun st pk =>
          match getA st.pods pk with
          | some p => { st with pods := setA st.pods pk { p with ruleRefs := delSet' p.ruleRefs rid } }
          | none => st) st
      let st := match r.NamedPortSet with
        | some n => delSetOp st n
        | none => st
      let st := match r.PodIPSet with
        | some n => delSetOp st n
        | none => st
      { st with rules := delSet' st.rules rid, ruleStore := delA st.ruleStore rid }) st

/-- `deleteNWP` (nwp.go). -/
def deleteNWP (st : St) (pm : Policy) (name : ObjName) : St :=
  let st := pm.podRefs.foldl (fun st pk => removePodNWP st pk name) st
  let st := match pm.ingressChain with
    | some cn => delChainOp st cn
    | none => st
  let st := match pm.egressChain with
    | some cn => delChainOp st cn
    | none => st
  let st := deleteRules st pm.IngressRuleMeta
  let st := deleteRules st pm.EgressRuleMeta
  { st with nwps := delA st.nwps name }

/-- `SetNetworkPolicy` (nwp.go lines 491-508): note that the error returned
by `createNWP` is discarded in both the create and the update case, and the
function always returns nil. -/
def SetNetworkPolicy (st : St) (name : ObjName) (nwp : Option KNwp) : St × Option String :=
  match getA st.nwps name, nwp with
  | none, some n => ((createNWP st n name).1, none)
  | some syncedNWP, none => (deleteNWP st syncedNWP name, none)
  | some syncedNWP, some n =>
    ((createNWP (deleteNWP st syncedNWP name) n name).1, none)
  | none, none => (st, none)

/-! ### controller.go (`New`) -/

/-- `New` (controller.go): the startup `ListTables`/`DelTable` cleanup of a
pre-existing kernel ruleset is environment-dependent and elided; the model
starts from an empty ruleset. -/
def New (podIfaceGroup : Nat) : St :=
  let st : St := {}
  let st := { st with log := st.log ++ [.addTable] }
  let st := addChainOp st "filter_hook_ing"
  let st := (addRuleOp st "filter_hook_ing" [.ctEstablishedRelatedAccept]).1
  let st := addSetOp st { Name := "vmap_ing", IsMap := true, KeyKind := .ipAddr
                          DataKind := .verdict } []
  let ingPrefilter : List NftExpr :=
    if podIfaceGroup ≠ 0 then [.metaOIFGroup 0, .cmpEq 0 (le32 podIfaceGroup)] else []
  let st := (addRuleOp st "filter_hook_ing"
      (ingPrefilter ++ [.loadIP .dirEgress 0, .lookupSet (.named "vmap_ing") 0 (some 0)])).1
  let st := addChainOp st "filter_hook_eg"
  let st := (addRuleOp st "filter_hook_eg" [.ctEstablishedRelatedAccept]).1
  let st := addSetOp st { Name := "vmap_eg", IsMap := true, KeyKind := .ipAddr
                          DataKind := .verdict } []
  let egPrefilter : List NftExpr :=
    if podIfaceGroup ≠ 0 then [.metaIIFGroup 0, .cmpEq 0 (le32 podIfaceGroup)] else []
  let st := (addRuleOp st "filter_hook_eg"
      (egPrefilter ++ [.loadIP .dirIngress 0, .lookupSet (.named "vmap_eg") 0 (some 0)])).1
  st

/-! ### Net-effect comparison of rulesets -/

/-- Multiset equality of element lists (set elements are unordered in the
kernel). -/
def elemsPermEq (a b : List SetElem) : Bool :=
  a.all (fun x => a.count x == b.count x) && b.all (fun x => a.count x == b.count x)

def chainsSubsetEq (a b : List ChainObj) : Bool :=
  a.all fun c =>
    match b.find? (fun c2 => c2.name == c.name) with
    | some c2 => c.rules.map (·.exprs) == c2.rules.map (·.exprs)
    | none => false

def setsSubsetEq (a b : List SetObj) : Bool :=
  a.all fun s =>
    match b.find? (fun s2 => s2.name == s.name) with
    | some s2 => s.spec == s2.spec && elemsPermEq s.elems s2.elems
    | none => false

/-- Net equality of two rulesets: same chains (by name) with the same rule
contents in the same order (handles ignored), and same named sets (by name)
with the same descriptor and the same multiset of elements. -/
def netEq (r1 r2 : Ruleset) : Bool :=
  chainsSubsetEq r1.chains r2.chains && chainsSubsetEq r2.chains r1.chains &&
  setsSubsetEq r1.sets r2.sets && setsSubsetEq r2.sets r1.sets

/-! ### Helper lemmas for the claim theorems -/

theorem utf8ByteSize_append (a b : String) :
    (a ++ b).utf8ByteSize = a.utf8ByteSize + b.utf8ByteSize := by
  cases a with | mk la =>
  cases b with | mk lb =>
  show String.utf8ByteSize ⟨la ++ lb⟩ = _
  rw [String.utf8ByteSize_mk]
  rw [show String.utf8ByteSize ⟨la⟩ = String.utf8Len la from String.utf8ByteSize_mk la]
  rw [show String.utf8ByteSize ⟨lb⟩ = String.utf8Len lb from String.utf8ByteSize_mk lb]
  exact String.utf8Len_append la lb

/-- Logical characterization of `PodSelector.Matches`: a nil namespace
selector (`Selector.nothing`) restricts the match to the policy namespace,
any other namespace selector is checked against the labels of the pod
namespace, and in every case the pod namespace must be present in the
namespace map and the pod selector must match the pod labels. -/
theorem Matches_iff (sel : PodSelector) (pm : Pod) (selNs : String)
    (namespaces : List (String × Namespace)) :
    PodSelector.Matches sel pm selNs namespaces = true ↔
      ((sel.NamespaceSelector = Selector.nothing → selNs = pm.Namespace) ∧
       ∃ ns, getA namespaces pm.Namespace = some ns ∧
         (sel.NamespaceSelector ≠ Selector.nothing →
           Selector.Matches sel.NamespaceSelector ns.Labels = true) ∧
         Selector.Matches sel.PodSelector pm.Labels = true) := by
  unfold PodSelector.Matches
  by_cases h1 : sel.NamespaceSelector = Selector.nothing <;>
    by_cases h2 : selNs = pm.Namespace <;>
      rcases hg : getA namespaces pm.Namespace with _ | ns <;>
        simp [h1, h2, hg, beq_iff_eq, bne_iff_ne]

/-- The spec sentence of C1 as a predicate, word for word: a rule includes a
pod iff the pod namespace equals the rule (policy) namespace and some peer
selector matches, or the rule has no peer selectors and a named-port set. -/
def specRuleSelectsPod (namespaces : List (String × Namespace)) (r : Rule) (pm : Pod) : Bool :=
  (r.Namespace == pm.Namespace &&
    r.PodSelectors.any fun sel => PodSelector.Matches sel pm r.Namespace namespaces) ||
  (r.PodSelectors.isEmpty && r.NamedPortSet.isSome)

end Nftctrl

namespace Nftctrl

theorem lookup_cons' {α β : Type} [BEq α] (k : α) (p : α × β) (rest : List (α × β)) :
    List.lookup k (p :: rest) = if k == p.1 then some p.2 else List.lookup k rest := by
  obtain ⟨a, b⟩ := p
  rw [List.lookup_cons]
  cases h : k == a <;> simp [h]

theorem lookup_isSome_of_mem_keys {α β : Type} [BEq α] [LawfulBEq α]
    (l : List (α × β)) (k : α) (h : k ∈ l.map (·.1)) : (l.lookup k).isSome := by
  induction l with
  | nil => simp at h
  | cons p rest ih =>
    rw [lookup_cons']
    by_cases hk : k == p.1
    · simp [hk]
    · rw [if_neg hk]
      apply ih
      rcases List.mem_map.mp h with ⟨q, hq, he⟩
      rcases List.mem_cons.mp hq with h' | h'
      · subst h'
        exact absurd (by simp [he]) hk
      · exact List.mem_map.mpr ⟨q, h', he⟩

theorem getA_setA_self {α β : Type} [BEq α] [LawfulBEq α] (m : List (α × β)) (k : α) (v : β) :
    getA (setA m k v) k = some v := by
  unfold getA setA
  split
  · rename_i hs
    induction m with
    | nil => simp at hs
    | cons p rest ih =>
      rw [List.map_cons]
      by_cases h : p.1 == k
      · rw [if_pos h, lookup_cons']
        simp
      · rw [if_neg h, lookup_cons']
        have hk : ¬ (k == p.1) = true := by
          simp at h ⊢
          exact fun e => h e.symm
        rw [if_neg hk]
        apply ih
        rw [lookup_cons'] at hs
        rw [if_neg hk] at hs
        exact hs
  · rename_i hs
    induction m with
    | nil => simp [lookup_cons']
    | cons p rest ih =>
      rw [List.cons_append, lookup_cons']
      rw [lookup_cons'] at hs
      by_cases h : k == p.1
      · rw [if_pos h] at hs
        simp at hs
      · rw [if_neg h] at hs ⊢
        exact ih hs

/-- In a map with no duplicate keys, every entry is found by lookup. -/
theorem getA_self_of_nodup {β : Type} (l : List (String × β))
    (hnd : (l.map (·.1)).Nodup) (k : String) (v : β) (hm : (k, v) ∈ l) :
    getA l k = some v := by
  unfold getA
  induction l with
  | nil => simp at hm
  | cons p rest ih =>
    simp only [List.map_cons, List.nodup_cons] at hnd
    rw [lookup_cons']
    rcases List.mem_cons.mp hm with h | h
    · subst h
      simp
    · have hk : ¬ (k == p.1) = true := by
        simp only [beq_iff_eq]
        intro he
        exact hnd.1 (he ▸ List.mem_map.mpr ⟨(k, v), h, rfl⟩)
      rw [if_neg hk]
      exact ih hnd.2 h

/-- `setA` preserves the no-duplicate-keys property. -/
theorem setA_nodup {β : Type} (l : List (String × β)) (k : String) (v : β)
    (hnd : (l.map (·.1)).Nodup) : ((setA l k v).map (·.1)).Nodup := by
  unfold setA
  split
  · have : (l.map fun p => if p.1 == k then (k, v) else p).map (·.1) = l.map (·.1) := by
      rw [List.map_map]
      apply List.map_congr_left
      intro p _
      by_cases h : p.1 == k
      · simp only [Function.comp_apply, if_pos h]
        exact (eq_of_beq h).symm
      · simp only [Function.comp_apply, if_neg h]
    rw [this]
    exact hnd
  · rename_i hs
    rw [List.map_append]
    simp only [List.map_cons, List.map_nil]
    rw [List.nodup_append]
    refine ⟨hnd, List.nodup_singleton k, ?_⟩
    intro a ha
    simp only [List.mem_singleton]
    intro he
    subst he
    exact hs (lookup_isSome_of_mem_keys l a ha)

/-- The semantic fields of a pod (the ones `SemanticallyEqual` inspects). -/
def Pod.sem (pm : Pod) :
    String × String × Nftctrl.Labels × List Addr × List (String × NamedPort) :=
  (pm.Namespace, pm.ID, pm.Labels, pm.IPs, pm.NamedPorts)

/-- `SemanticallyEqual` holds between pods whose semantic fields are equal,
provided the label and named-port maps have no duplicate keys (true of Go
maps). -/
theorem semEq_refl (pm pm2 : Pod) (hsem : pm.sem = pm2.sem)
    (hl : (pm.Labels.map (·.1)).Nodup) (hnp : (pm.NamedPorts.map (·.1)).Nodup) :
    Pod.SemanticallyEqual pm pm2 = true := by
  have h1 : pm.Namespace = pm2.Namespace := congrArg (fun t => t.1) hsem
  have h2 : pm.ID = pm2.ID := congrArg (fun t => t.2.1) hsem
  have h3 : pm.Labels = pm2.Labels := congrArg (fun t => t.2.2.1) hsem
  have h4 : pm.IPs = pm2.IPs := congrArg (fun t => t.2.2.2.1) hsem
  have h5 : pm.NamedPorts = pm2.NamedPorts := congrArg (fun t => t.2.2.2.2) hsem
  unfold Pod.SemanticallyEqual
  rw [if_neg]
  · rw [← h3, ← h5]
    simp only [Bool.and_eq_true]
    refine ⟨⟨?_, ?_⟩, ?_⟩
    · apply List.all_eq_true.mpr
      intro kv hkv
      have := getA_self_of_nodup pm.Labels hl kv.1 kv.2 (by simpa using hkv)
      simp [this]
    · apply List.all_eq_true.mpr
      intro np hnpm
      have := getA_self_of_nodup pm.NamedPorts hnp np.1 np.2 (by simpa using hnpm)
      simp [this]
    · apply List.all_eq_true.mpr
      intro ip hip
      rw [← h4]
      simpa using hip
  · rw [h1, h2, h3, h4, h5]
    simp

/-- Generic transfer: a fold whose second component evolves independently of
the first can be projected to a pure fold. -/
theorem foldl_snd_indep {α σ β : Type} (f : σ × β → α → σ × β) (g : β → α → β)
    (hf : ∀ sb a, (f sb a).2 = g sb.2 a) :
    ∀ (l : List α) (s : σ) (b : β), (l.foldl f (s, b)).2 = l.foldl g b := by
  intro l
  induction l with
  | nil => intros; rfl
  | cons a rest ih =>
    intro s b
    rw [List.foldl_cons, List.foldl_cons]
    have : f (s, b) a = ((f (s, b) a).1, g b a) := by
      rw [← hf (s, b) a]
    rw [this, ih]


/-- Forget the recorded events (the event recorder is an external sink, not
part of the staged ruleset transaction). -/
def stripEvents (st : St) : St := { st with events := [] }

/-- `addPodNWP` never changes the pod's semantic fields (it only wires up
chains and references). -/
theorem addPodNWP_sem (st : St) (nwp : Policy) (pk : ObjName) (pm : Pod) :
    (addPodNWP st nwp pk pm).2.2.sem = pm.sem := by
  unfold addPodNWP
  dsimp only
  repeat' split
  all_goals rfl

/-- `addPodRule` never changes the pod's semantic fields. -/
theorem addPodRule_sem (st : St) (rid : Nat) (pk : ObjName) (pm : Pod) :
    (addPodRule st rid pk pm).2.sem = pm.sem := by
  unfold addPodRule
  split
  · rfl
  · split
    · rfl
    · rfl


/-- The pure named-port step of `normalizePod` (its effect on the map,
separated from the event recording). -/
def npPortStep (nps : List (String × NamedPort)) (port : KContainerPort) :
    List (String × NamedPort) :=
  if port.Name != "" then
    if port.ContainerPort > 65535 then nps
    else
      let proto := if port.Protocol != "" then parseProtocol port.Protocol else (6, true)
      if proto.2 then setA nps port.Name ⟨proto.1, toUint16 port.ContainerPort⟩ else nps
  else nps

/-- The pod value `normalizePod` produces, as a pure function of the input
object (the threaded state only collects warning events). -/
def pureNormalizePod (pod : KPod) : Pod :=
  { Namespace := pod.Namespace
    ID := objectID pod.Namespace pod.Name pod.UID
    Labels := pod.Labels
    IPs := pod.PodIPs.filterMap fun ip =>
      if pod.Phase != "Running" && pod.Phase != "Pending" then none else ip
    NamedPorts := (pod.Containers ++ pod.InitContainers).foldl
      (fun nps c => c.Ports.foldl npPortStep nps) [] }

theorem normalizePod_pod (st : St) (pod : KPod) :
    (normalizePod st pod).2 = pureNormalizePod pod := by
  unfold normalizePod pureNormalizePod
  dsimp only
  congr 1
  refine foldl_snd_indep _ _ ?_ _ st []
  intro sb c
  obtain ⟨s, b⟩ := sb
  refine foldl_snd_indep _ _ ?_ c.Ports s b
  intro sb2 p
  unfold npPortStep
  dsimp only
  repeat' split
  all_goals rfl

theorem foldl_fst_stripEvents {α β : Type} (f : St × β → α → St × β)
    (hf : ∀ sb a, stripEvents (f sb a).1 = stripEvents sb.1) :
    ∀ (l : List α) (sb : St × β), stripEvents ((l.foldl f sb)).1 = stripEvents sb.1 := by
  intro l
  induction l with
  | nil => intros; rfl
  | cons a rest ih =>
    intro sb
    rw [List.foldl_cons]
    rw [ih (f sb a), hf sb a]

theorem stripEvents_recordEvent (st : St) (t r : String) :
    stripEvents (recordEvent st t r) = stripEvents st := rfl

/-- `normalizePod` touches nothing in the state but the recorded events. -/
theorem normalizePod_st (st : St) (pod : KPod) :
    stripEvents (normalizePod st pod).1 = stripEvents st := by
  unfold normalizePod
  dsimp only
  refine foldl_fst_stripEvents _ ?_ _ (st, [])
  intro sb c
  refine foldl_fst_stripEvents _ ?_ c.Ports sb
  intro sb2 p
  dsimp only
  repeat' split
  all_goals rfl

theorem foldl_invariant {α β : Type} (P : β → Prop) (f : β → α → β)
    (hstep : ∀ b a, P b → P (f b a)) :
    ∀ (l : List α) (b : β), P b → P (l.foldl f b) := by
  intro l
  induction l with
  | nil => intro b hb; exact hb
  | cons a rest ih =>
    intro b hb
    rw [List.foldl_cons]
    exact ih (f b a) (hstep b a hb)

/-- The named-port map `normalizePod` builds has no duplicate keys. -/
theorem pureNormalizePod_nodup (pod : KPod) :
    ((pureNormalizePod pod).NamedPorts.map (·.1)).Nodup := by
  unfold pureNormalizePod
  dsimp only
  refine foldl_invariant
    (fun nps : List (String × NamedPort) => (nps.map (·.1)).Nodup) _ ?_ _ [] (by simp)
  intro b c hb
  refine foldl_invariant
    (fun nps : List (String × NamedPort) => (nps.map (·.1)).Nodup) npPortStep ?_ c.Ports b hb
  intro b2 p hb2
  unfold npPortStep
  dsimp only
  repeat' split
  all_goals first
  | exact hb2
  | exact setA_nodup _ _ _ hb2

theorem foldl_pod_sem {α : Type} (f : St × Pod → α → St × Pod)
    (hf : ∀ sb a, (f sb a).2.sem = sb.2.sem) :
    ∀ (l : List α) (sb : St × Pod), (l.foldl f sb).2.sem = sb.2.sem := by
  intro l
  induction l with
  | nil => intros; rfl
  | cons a rest ih =>
    intro sb
    rw [List.foldl_cons, ih (f sb a), hf sb a]

/-- After `setPodCreate`, the pod stored under `name` has the semantic
fields of the normalized pod that was wired up. -/
theorem setPodCreate_get (st : St) (name : ObjName) (np : Pod) :
    ∃ np', getA (setPodCreate st name np).pods name = some np' ∧ np'.sem = np.sem := by
  unfold setPodCreate
  dsimp only
  refine ⟨_, getA_setA_self _ _ _, ?_⟩
  have h2 := foldl_pod_sem (fun (acc : St × Pod) rid => addPodRule acc.1 rid name acc.2)
    (fun sb a => addPodRule_sem sb.1 a name sb.2)
  have h1 := foldl_pod_sem (fun (acc : St × Pod) polKey =>
      match getA acc.1.nwps polKey with
      | none => acc
      | some nwp =>
        let r := addPodNWP acc.1 nwp name acc.2
        ({ r.1 with nwps := setA r.1.nwps polKey r.2.1 }, r.2.2)) ?_
  · rw [h2, h1]
  · intro sb a
    dsimp only
    split
    · rfl
    · exact addPodNWP_sem _ _ _ _


/-- If the pod stored under `name` already passes the semantic-equality
check against the (re)normalized object, `SetPod` changes nothing but the
recorded events. -/
theorem SetPod_noop (s1 : St) (name : ObjName) (pod : KPod) (np' : Pod)
    (hget : getA s1.pods name = some np')
    (hcheck : Pod.SemanticallyEqual (pureNormalizePod pod) np' = true) :
    stripEvents (SetPod s1 name (some pod)) = stripEvents s1 := by
  unfold SetPod
  rw [hget]
  dsimp only
  rw [normalizePod_pod s1 pod, if_pos hcheck]
  exact normalizePod_st s1 pod

/-- Setting the same pod object twice: the second call stages nothing and
changes nothing except possibly re-recording normalization warning events. -/
theorem SetPod_idem (st : St) (name : ObjName) (pod : KPod)
    (hnd : (pod.Labels.map (·.1)).Nodup) :
    stripEvents (SetPod (SetPod st name (some pod)) name (some pod)) =
      stripEvents (SetPod st name (some pod)) := by
  have hlbl : ((pureNormalizePod pod).Labels.map (·.1)).Nodup := hnd
  have hnpnd := pureNormalizePod_nodup pod
  rcases h0 : getA st.pods name with _ | syncedPod
  · have e1 : SetPod st name (some pod) =
        setPodCreate (normalizePod st pod).1 name (normalizePod st pod).2 := by
      unfold SetPod
      rw [h0]
    obtain ⟨np', hget, hsem⟩ :=
      setPodCreate_get (normalizePod st pod).1 name (normalizePod st pod).2
    rw [e1]
    apply SetPod_noop _ name pod np' hget
    apply semEq_refl _ _ _ hlbl hnpnd
    rw [hsem, normalizePod_pod]
  · have e1 : SetPod st name (some pod) =
        (let a := normalizePod st pod
         if Pod.SemanticallyEqual a.2 syncedPod then a.1
         else
           let st := deletePod a.1 name syncedPod
           let st := { st with pods := delA st.pods name }
           setPodCreate st name a.2) := by
      unfold SetPod
      rw [h0]
    rw [e1]
    dsimp only
    by_cases he : Pod.SemanticallyEqual (normalizePod st pod).2 syncedPod = true
    · rw [if_pos he]
      have hp : ((normalizePod st pod).1).pods = st.pods :=
        congrArg (fun s => s.pods) (normalizePod_st st pod)
      apply SetPod_noop _ name pod syncedPod (by rw [hp]; exact h0)
      rw [← normalizePod_pod st pod]
      exact he
    · rw [if_neg he]
      obtain ⟨np', hget, hsem⟩ := setPodCreate_get _ name (normalizePod st pod).2
      apply SetPod_noop _ name pod np' hget
      apply semEq_refl _ _ _ hlbl hnpnd
      rw [hsem, normalizePod_pod]


theorem nsSemEq_refl (ns : Namespace) (hnd : (ns.Labels.map (·.1)).Nodup) :
    Namespace.SemanticallyEqual ns ns = true := by
  unfold Namespace.SemanticallyEqual
  rw [if_neg (by simp)]
  apply List.all_eq_true.mpr
  intro kv hkv
  have := getA_self_of_nodup ns.Labels hnd kv.1 kv.2 (by simpa using hkv)
  simp [this]

theorem foldl_st_namespaces {α : Type} (f : St → α → St)
    (hf : ∀ s a, (f s a).namespaces = s.namespaces) :
    ∀ (l : List α) (s : St), (l.foldl f s).namespaces = s.namespaces := by
  intro l
  induction l with
  | nil => intros; rfl
  | cons a rest ih =>
    intro s
    rw [List.foldl_cons, ih (f s a), hf s a]

theorem reevalPodInRule_namespaces (st : St) (pk : ObjName) (rid : Nat) :
    (reevalPodInRule st pk rid).namespaces = st.namespaces := by
  unfold reevalPodInRule
  dsimp only
  repeat' split
  all_goals rfl

theorem updateNS_namespaces (st : St) (old : Option Namespace) (new : Namespace) :
    (updateNS st old new).namespaces = st.namespaces := by
  unfold updateNS
  refine foldl_st_namespaces _ ?_ _ st
  intro s rid
  dsimp only
  split
  · rfl
  · exact foldl_st_namespaces _ (fun s2 pk => reevalPodInRule_namespaces s2 pk rid) _ s

/-- Setting the same namespace object twice: the second call is a complete
no-op. -/
theorem SetNamespace_idem (st : St) (nm : String) (ns : KNamespace)
    (hnd : (ns.Labels.map (·.1)).Nodup) :
    SetNamespace (SetNamespace st nm (some ns)) nm (some ns) =
      SetNamespace st nm (some ns) := by
  have hrefl : Namespace.SemanticallyEqual ⟨nm, ns.Labels⟩ ⟨nm, ns.Labels⟩ = true :=
    nsSemEq_refl ⟨nm, ns.Labels⟩ hnd
  rcases h0 : getA st.namespaces nm with _ | syncedNS
  · have e1 : SetNamespace st nm (some ns) =
        updateNS { st with namespaces := setA st.namespaces nm ⟨nm, ns.Labels⟩ }
          none ⟨nm, ns.Labels⟩ := by
      unfold SetNamespace
      rw [h0]
    obtain ⟨s1, hs1⟩ : ∃ s1, SetNamespace st nm (some ns) = s1 := ⟨_, rfl⟩
    have hget : getA s1.namespaces nm = some ⟨nm, ns.Labels⟩ := by
      rw [← hs1, e1, updateNS_namespaces]
      exact getA_setA_self _ _ _
    rw [hs1]
    unfold SetNamespace
    rw [hget]
    dsimp only
    rw [if_pos hrefl]
  · have e1 : SetNamespace st nm (some ns) =
        (if Namespace.SemanticallyEqual syncedNS ⟨nm, ns.Labels⟩ then st
         else updateNS { st with namespaces := setA st.namespaces nm ⟨nm, ns.Labels⟩ }
           (some syncedNS) ⟨nm, ns.Labels⟩) := by
      unfold SetNamespace
      rw [h0]
    by_cases he : Namespace.SemanticallyEqual syncedNS ⟨nm, ns.Labels⟩ = true
    · have e2 : SetNamespace st nm (some ns) = st := by rw [e1, if_pos he]
      rw [e2, e2]
    · obtain ⟨s1, hs1⟩ : ∃ s1, SetNamespace st nm (some ns) = s1 := ⟨_, rfl⟩
      have hget : getA s1.namespaces nm = some ⟨nm, ns.Labels⟩ := by
        rw [← hs1, e1, if_neg he, updateNS_namespaces]
        exact getA_setA_self _ _ _
      rw [hs1]
      unfold SetNamespace
      rw [hget]
      dsimp only
      rw [if_pos hrefl]

/-- `SetNetworkPolicy` on an existing key is exactly a teardown of the old
compiled policy followed by a rebuild, with the compilation error (if any)
discarded and nil returned. -/
theorem SetNetworkPolicy_rebuild (st : St) (name : ObjName) (n : KNwp) (p : Policy)
    (h : getA st.nwps name = some p) :
    SetNetworkPolicy st name (some n) = ((createNWP (deleteNWP st p name) n name).1, none) := by
  unfold SetNetworkPolicy
  rw [h]


/-! ### The compiled named-port requests and surviving peer selectors of a
rule entry, as pure observations (the threaded state only collects events,
so these outputs do not depend on it). -/

theorem portStep_snd (st st' : St) (d : List RuleNamedPortMeta)
    (n : List RuleNumberedPortMeta) (p : KPort) :
    (portStep st d n p).2 = (portStep st' d n p).2 := by
  unfold portStep
  dsimp only
  repeat' split
  all_goals rfl

theorem peerSelStep_snd (st st' : St) (sels : List PodSelector)
    (ipr : Ranges.TMap Addr) (src : KPeer) :
    (peerSelStep st sels ipr src).2 = (peerSelStep st' sels ipr src).2 := by
  unfold peerSelStep
  dsimp only
  repeat' split
  all_goals rfl

/-- The pure range effect of one `Except` entry. -/
def exceptPure (tb : Ranges.TMap Addr) (excl : Option Prfx) : Ranges.TMap Addr :=
  match excl with
  | none => tb
  | some pExcl => Ranges.Subtract lessAddrs closest tb (prefixToRange pExcl)

theorem exceptStep_snd (p : Prfx) (sb : St × Ranges.TMap Addr) (excl : Option Prfx) :
    (exceptStep p sb excl).2 = exceptPure sb.2 excl := by
  unfold exceptStep exceptPure
  dsimp only
  repeat' split
  all_goals rfl

theorem peerStep_snd (st st' : St) (sels : List PodSelector)
    (ipr : Ranges.TMap Addr) (src : KPeer) :
    (peerStep st sels ipr src).2 = (peerStep st' sels ipr src).2 := by
  unfold peerStep
  dsimp only
  split
  · rename_i ib hib
    split
    · rfl
    · split
      · rfl
      · split
        · rfl
        · rename_i p hc
          have h1 := foldl_snd_indep (exceptStep p) exceptPure (exceptStep_snd p)
            ib.Except st (Ranges.Add lessAddrs [] (prefixToRange p))
          have h2 := foldl_snd_indep (exceptStep p) exceptPure (exceptStep_snd p)
            ib.Except st' (Ranges.Add lessAddrs [] (prefixToRange p))
          rw [h1, h2]
          exact peerSelStep_snd _ _ sels _ src
  · exact peerSelStep_snd st st' sels ipr src

/-- The numbered and named port requests a port list compiles to (pure
observation of `classifyPorts`). -/
def compiledPorts (ports : List KPort) :
    List RuleNamedPortMeta × List RuleNumberedPortMeta :=
  (classifyPorts {} ports).2

theorem classifyPorts_snd (st : St) (ports : List KPort) :
    (classifyPorts st ports).2 = compiledPorts ports := by
  unfold classifyPorts compiledPorts classifyPorts
  rw [foldl_snd_indep _ (fun dn p => (portStep ({} : St) dn.1 dn.2 p).2) ?_ _ st ([], []),
      foldl_snd_indep _ (fun dn p => (portStep ({} : St) dn.1 dn.2 p).2) ?_ _ ({} : St) ([], [])]
  all_goals
    intro sb a
    exact portStep_snd sb.1 {} sb.2.1 sb.2.2 a

/-- The surviving peer selectors and permitted IP ranges a peer list
compiles to (pure observation of the peer loop of `createPeers`). -/
def compiledPeers (peers : List KPeer) :
    List PodSelector × Ranges.TMap Addr :=
  (peers.foldl (fun (acc : St × List PodSelector × Ranges.TMap Addr) src =>
      peerStep acc.1 acc.2.1 acc.2.2 src) (({} : St), [], [])).2

theorem peersFold_snd (st : St) (peers : List KPeer) :
    (peers.foldl (fun (acc : St × List PodSelector × Ranges.TMap Addr) src =>
        peerStep acc.1 acc.2.1 acc.2.2 src) (st, [], [])).2 = compiledPeers peers := by
  unfold compiledPeers
  rw [foldl_snd_indep _ (fun si p => (peerStep ({} : St) si.1 si.2 p).2) ?_ _ st ([], []),
      foldl_snd_indep _ (fun si p => (peerStep ({} : St) si.1 si.2 p).2) ?_ _ ({} : St) ([], [])]
  all_goals
    intro sb a
    exact peerStep_snd sb.1 {} sb.2.1 sb.2.2 a

end Nftctrl

/-! ## The claims -/

namespace Nftctrl

/-- C1, counterexample: a rule compiled in policy namespace `a` carrying one
surviving peer selector with a non-nil (everything) namespace selector
selects a pod living in namespace `b`: `ruleSelectsPod` returns true while
the spec predicate (which additionally requires the pod namespace to equal
the policy namespace) returns false. -/
theorem C1_counterexample :
    ruleSelectsPod [("b", { Name := "b", Labels := [] })]
      { Namespace := "a", PodSelectors := [⟨Selector.reqs [], Selector.reqs []⟩] }
      { Namespace := "b", ID := "b_y", Labels := [], IPs := [], NamedPorts := [] } = true ∧
    specRuleSelectsPod [("b", { Name := "b", Labels := [] })]
      { Namespace := "a", PodSelectors := [⟨Selector.reqs [], Selector.reqs []⟩] }
      { Namespace := "b", ID := "b_y", Labels := [], IPs := [], NamedPorts := [] } = false := by
  decide

/-- C1 (amended): `ruleSelectsPod` holds iff some peer selector of the rule
matches the pod — where a nil namespace selector restricts the match to the
policy namespace but any other namespace selector admits pods of every
namespace whose labels it matches — or the rule has no peer selectors and a
named-port set. The pod namespace must be present in the namespace map in
all selector cases. -/
theorem C1_amended (namespaces : List (String × Namespace)) (r : Rule) (pm : Pod) :
    ruleSelectsPod namespaces r pm = true ↔
      ((∃ sel ∈ r.PodSelectors,
          (sel.NamespaceSelector = Selector.nothing → r.Namespace = pm.Namespace) ∧
          ∃ ns, getA namespaces pm.Namespace = some ns ∧
            (sel.NamespaceSelector ≠ Selector.nothing →
              Selector.Matches sel.NamespaceSelector ns.Labels = true) ∧
            Selector.Matches sel.PodSelector pm.Labels = true) ∨
        (r.PodSelectors = [] ∧ ∃ x, r.NamedPortSet = some x)) := by
  unfold ruleSelectsPod
  simp only [Bool.or_eq_true, List.any_eq_true, Bool.and_eq_true,
    List.isEmpty_iff, Option.isSome_iff_exists]
  constructor
  · rintro (⟨sel, hmem, hM⟩ | ⟨he, hs⟩)
    · exact Or.inl ⟨sel, hmem, (Matches_iff sel pm r.Namespace namespaces).1 hM⟩
    · exact Or.inr ⟨he, hs⟩
  · rintro (⟨sel, hmem, hM⟩ | ⟨he, hs⟩)
    · exact Or.inl ⟨sel, hmem, (Matches_iff sel pm r.Namespace namespaces).2 hM⟩
    · exact Or.inr ⟨he, hs⟩

/-- C2: for every sequence of Add/Subtract operations with valid ranges,
the points covered by the resulting Range Set are exactly the points the
trivial per-element boolean bitmap oracle marks covered. -/
theorem C2_bitmap_equivalence (ops : List Ranges.Op)
    (h : ∀ op ∈ ops, Ranges.opValid op) (x : Int) :
    Ranges.covers (Ranges.applyOps ops) x = Ranges.bitmap ops x :=
  Ranges.applyOps_covers ops h x

/-- C2, witness at the sequence Add [0,5]; Subtract [2,3] and the point 4. -/
theorem C2_witness :
    (∀ op ∈ [Ranges.Op.add ⟨0, 5⟩, Ranges.Op.sub ⟨2, 3⟩], Ranges.opValid op) ∧
    Ranges.covers (Ranges.applyOps [Ranges.Op.add ⟨0, 5⟩, Ranges.Op.sub ⟨2, 3⟩]) 4 =
      Ranges.bitmap [Ranges.Op.add ⟨0, 5⟩, Ranges.Op.sub ⟨2, 3⟩] 4 :=
  ⟨by decide, C2_bitmap_equivalence _ (by decide) 4⟩

/-- C3 (code bug): adding the exactly adjacent ranges [0,2] and [3,5]
leaves two intervals in the set instead of coalescing them into [0,5]: the
result satisfies the weaker sorted-disjoint invariant the code maintains but
violates the non-adjacency invariant the spec states (each interval's start
past the immediate successor of the previous end). -/
theorem C3_adjacent_not_coalesced :
    Ranges.applyOps [Ranges.Op.add ⟨0, 2⟩, Ranges.Op.add ⟨3, 5⟩] = [(0, 2), (3, 5)] ∧
    Ranges.intervalsOK (Ranges.applyOps [Ranges.Op.add ⟨0, 2⟩, Ranges.Op.add ⟨3, 5⟩]) ∧
    ¬ Ranges.intervalsSpecOK (Ranges.applyOps [Ranges.Op.add ⟨0, 2⟩, Ranges.Op.add ⟨3, 5⟩]) :=
  ⟨by decide, by decide, by decide⟩

/-- C4, counterexample: a rule entry with one named-port request and an
entirely empty peer list gets no named-port set (and stages no operation at
all), while the same request next to one surviving peer selector does get
the set `pfx_namedports`. -/
theorem C4_counterexample :
    (createPeers {} "ch" [] [{ Port := some (.str "http") }] "pfx" .dirIngress "a").2.NamedPortSet
      = none ∧
    (createPeers {} "ch" [] [{ Port := some (.str "http") }] "pfx" .dirIngress "a").1 = ({} : St) ∧
    (createPeers {} "ch" [{ PodSelector := some (.valid []) }]
        [{ Port := some (.str "http") }] "pfx" .dirIngress "a").2.NamedPortSet
      = some "pfx_namedports" :=
  ⟨rfl, rfl, rfl⟩

/-- C4 (amended): the compiled rule's named-port set is allocated (under
the name `<pfx>_namedports`) exactly when the port list compiles to at
least one named-port request and at least one peer selector survives
compilation; an empty peer list never qualifies. -/
theorem C4_amended (st : St) (ch : String) (peers : List KPeer) (ports : List KPort)
    (pfx : String) (dir : direction) (nwpNamespace : String) :
    (createPeers st ch peers ports pfx dir nwpNamespace).2.NamedPortSet =
      if (compiledPorts ports).1.length > 0 && (compiledPeers peers).1.length > 0
      then some (pfx ++ "_namedports") else none := by
  unfold createPeers
  dsimp only
  rw [peersFold_snd st peers, classifyPorts_snd]
  by_cases hc : ((compiledPorts ports).1.length > 0 &&
      (compiledPeers peers).1.length > 0) = true
  · rw [if_pos hc, if_pos hc]
    repeat' split
    all_goals rfl
  · rw [if_neg hc, if_neg hc]
    repeat' split
    all_goals rfl

/-- C5 (code bug): a rule entry whose peer list is entirely empty stages no
operation at all — neither with a numbered port (where the spec requires a
rule with the port-proto expressions and accept) nor with no ports (where
the spec requires a bare accept rule): the state is returned unchanged. -/
theorem C5_no_empty_peer_rule :
    (createPeers {} "ch" [] [{ Protocol := some "TCP", Port := some (.int 80) }]
        "pfx" .dirIngress "a").1 = ({} : St) ∧
    (createPeers {} "ch" [] [] "pfx" .dirIngress "a").1 = ({} : St) :=
  ⟨rfl, rfl⟩

end Nftctrl

namespace Nftctrl

def c6Pod : KPod := { Namespace := "a", Name := "x", UID := "u1", Labels := [],
                      Phase := "Running", PodIPs := [some [10, 0, 0, 1]] }

def c6PolP : KNwp := { Namespace := "a", Name := "P", PodSelector := .valid [],
                       PolicyTypes := ["Ingress"] }

def c6PolQ : KNwp := { Namespace := "a", Name := "Q", PodSelector := .valid [],
                       PolicyTypes := ["Ingress"] }

/-- The state after syncing pod `a/x` and the two policies `a/P`, `a/Q`
(both ingress, both selecting every pod). -/
def c6s3 : St :=
  (SetNetworkPolicy
    ((SetNetworkPolicy (SetPod (New 0) ("a", "x") (some c6Pod)) ("a", "P") (some c6PolP)).1)
    ("a", "Q") (some c6PolQ)).1

def c6Pol : Policy := { Namespace := "a", Name := "P", PodSelector := Selector.reqs [] }

def c6St : St := { nwps := [(("a", "P"), c6Pol)] }

def c6NsObj : KNamespace := { Labels := [] }

/-- C6, counterexample: repeating `SetNetworkPolicy` for policy `a/P` on a
state where the pod `a/x` is matched by `a/P` and `a/Q` changes the net
ruleset: the teardown deletes the pod chain's jump to `P`'s chain and the
rebuild re-inserts it at the top, permuting the jump order ahead of `Q`'s
(netEq is not reflexively broken: it holds on the unchanged state). -/
theorem C6_counterexample :
    netEq ((SetNetworkPolicy c6s3 ("a", "P") (some c6PolP)).1).ruleset c6s3.ruleset = false ∧
    netEq c6s3.ruleset c6s3.ruleset = true := by
  decide

/-- C6 (amended): repeating `SetPod` with the same pod object changes
nothing but re-recorded normalization events; repeating `SetNamespace` with
the same namespace object is a complete no-op; repeating `SetNetworkPolicy`
on a synced key always stages a teardown of the old compiled policy
followed by a full rebuild (its net ruleset effect is not empty in general:
see the counterexample). -/
theorem C6_amended (st : St) (name : ObjName) (pod : KPod) (nm : String)
    (ns : KNamespace) (pname : ObjName) (n : KNwp) (p : Policy)
    (hpod : (pod.Labels.map (·.1)).Nodup)
    (hns : (ns.Labels.map (·.1)).Nodup)
    (hp : getA st.nwps pname = some p) :
    stripEvents (SetPod (SetPod st name (some pod)) name (some pod)) =
      stripEvents (SetPod st name (some pod)) ∧
    SetNamespace (SetNamespace st nm (some ns)) nm (some ns) =
      SetNamespace st nm (some ns) ∧
    SetNetworkPolicy st pname (some n) =
      ((createNWP (deleteNWP st p pname) n pname).1, none) :=
  ⟨SetPod_idem st name pod hpod, SetNamespace_idem st nm ns hns,
   SetNetworkPolicy_rebuild st pname n p hp⟩

/-- C6, witness at pod `a/x`, namespace `a` and a state with policy `a/P`
synced. -/
theorem C6_witness :
    stripEvents (SetPod (SetPod c6St ("a", "x") (some c6Pod)) ("a", "x") (some c6Pod)) =
      stripEvents (SetPod c6St ("a", "x") (some c6Pod)) ∧
    SetNamespace (SetNamespace c6St "a" (some c6NsObj)) "a" (some c6NsObj) =
      SetNamespace c6St "a" (some c6NsObj) ∧
    SetNetworkPolicy c6St ("a", "P") (some c6PolP) =
      ((createNWP (deleteNWP c6St c6Pol ("a", "P")) c6PolP ("a", "P")).1, none) :=
  C6_amended c6St ("a", "x") c6Pod "a" c6NsObj ("a", "P") c6PolP c6Pol
    (by decide) (by decide) (by decide)

/-- C7, counterexample: the integer port -1 is out of range but is not
skipped and records no warning — it is truncated by the uint16 conversion
to the numbered range [65535,65535] — while 70000 is skipped with a
warning. -/
theorem C7_counterexample :
    portStep {} [] [] { Port := some (.int (-1)) } = ({}, [], [⟨6, 65535, 65535⟩]) ∧
    portStep {} [] [] { Port := some (.int 70000) } =
      (recordEvent {} "Warning" "InvalidPort", [], []) := by
  decide

/-- C7 (amended): per NetworkPolicyPort entry — a nil port expands to the
full numbered range (TCP by default); a string port becomes a named-port
request; an unknown protocol is skipped with a warning; a port above 65535,
an endPort below the port, or an endPort above 65535 is skipped with a
warning; but a negative port is not rejected: any port value ≤ 65535 is
accepted after uint16 truncation. No case aborts the surrounding fold. -/
theorem C7_amended (st : St) (dyn : List RuleNamedPortMeta)
    (num : List RuleNumberedPortMeta) (s : String) (v w ep : Int)
    (hv : v ≤ 65535) (hw : 65535 < w) (hep : ep < v) :
    portStep st dyn num {} = (st, dyn, num ++ [⟨6, 0, 65535⟩]) ∧
    portStep st dyn num { Port := some (.str s) } = (st, dyn ++ [⟨s, 6⟩], num) ∧
    portStep st dyn num { Protocol := some "Bogus" } =
      (recordEvent st "Warning" "InvalidPort", dyn, num) ∧
    portStep st dyn num { Port := some (.int v) } =
      (st, dyn, num ++ [⟨6, toUint16 v, toUint16 v⟩]) ∧
    portStep st dyn num { Port := some (.int w) } =
      (recordEvent st "Warning" "InvalidPort", dyn, num) ∧
    portStep st dyn num { Port := some (.int v), EndPort := some ep } =
      (recordEvent st "Warning" "InvalidPort", dyn, num) := by
  refine ⟨rfl, rfl, rfl, ?_, ?_, ?_⟩
  · unfold portStep
    dsimp only
    rw [if_neg (by omega)]
  · unfold portStep
    dsimp only
    rw [if_pos hw]
  · unfold portStep
    dsimp only
    rw [if_neg (by omega), if_pos hep]

/-- C7, witness at port -1, port 70000 and the pair (port -1, endPort -2). -/
theorem C7_witness :
    portStep {} [] [] {} = ({}, [], [⟨6, 0, 65535⟩]) ∧
    portStep {} [] [] { Port := some (.str "http") } = ({}, [⟨"http", 6⟩], []) ∧
    portStep {} [] [] { Protocol := some "Bogus" } =
      (recordEvent {} "Warning" "InvalidPort", [], []) ∧
    portStep {} [] [] { Port := some (.int (-1)) } =
      ({}, [], [⟨6, toUint16 (-1), toUint16 (-1)⟩]) ∧
    portStep {} [] [] { Port := some (.int 70000) } =
      (recordEvent {} "Warning" "InvalidPort", [], []) ∧
    portStep {} [] [] { Port := some (.int (-1)), EndPort := some (-2) } =
      (recordEvent {} "Warning" "InvalidPort", [], []) :=
  C7_amended {} [] [] "http" (-1) 70000 (-2) (by decide) (by decide) (by decide)

end Nftctrl

namespace Nftctrl

def c8Nwp : KNwp := { Namespace := "a", Name := "p", PodSelector := .invalid }

/-- C8, counterexample: syncing a policy whose policy-level pod selector is
malformed leaves the state completely unchanged — in particular no event of
any kind is recorded — and returns nil rather than an error. -/
theorem C8_counterexample :
    SetNetworkPolicy {} ("a", "p") (some c8Nwp) = ({}, none) ∧
    (SetNetworkPolicy {} ("a", "p") (some c8Nwp)).1.events = [] :=
  ⟨rfl, rfl⟩

/-- C8 (amended): a malformed policy-level pod selector makes `createNWP`
abort with an error before staging anything, so the policy is skipped for
the cycle; but `SetNetworkPolicy` discards that error and returns nil with
the state unchanged — no event (there is no InvalidPolicy event type) and
no error surfaces, so the work item is never retried. -/
theorem C8_amended (st : St) (name : ObjName) (n : KNwp)
    (hbad : asSelector (some n.PodSelector) = none)
    (hnew : getA st.nwps name = none) :
    SetNetworkPolicy st name (some n) = (st, none) ∧
    createNWP st n name = (st, some "bad PodSelector") := by
  have hc : createNWP st n name = (st, some "bad PodSelector") := by
    unfold createNWP
    rw [hbad]
  refine ⟨?_, hc⟩
  unfold SetNetworkPolicy
  rw [hnew]
  dsimp only
  rw [hc]

/-- C8, witness at the empty state and a policy with an invalid selector. -/
theorem C8_witness :
    SetNetworkPolicy {} ("a", "p") (some c8Nwp) = ({}, none) ∧
    createNWP {} c8Nwp ("a", "p") = ({}, some "bad PodSelector") :=
  C8_amended {} ("a", "p") c8Nwp rfl rfl

def c9Ns : String := String.mk (List.replicate 60 'a')

def c9Name : String := String.mk (List.replicate 60 'b')

def c9Nwp : KNwp := { Namespace := c9Ns, Name := c9Name, PodSelector := .valid [],
                      PolicyTypes := ["Ingress"] }

set_option maxRecDepth 4096 in
/-- C9, counterexample: for a policy whose namespace and name are 60 bytes
each, the object-id stays below the 128-byte bound (no UID fallback), yet
the emitted per-policy ingress chain name `pol_<ns>_<name>_ing` — built
from the raw namespace and name, not from the object-id — is 129 bytes. -/
theorem C9_counterexample :
    objectID c9Ns c9Name "u" = c9Ns ++ "_" ++ c9Name ∧
    ((createNWP {} c9Nwp (c9Ns, c9Name)).1.ruleset.chains.map
        fun c => decide (128 < c.name.utf8ByteSize)) = [true] := by
  decide

/-- C9 (amended): the object-id respects the 128-byte bound — it is
`<namespace>_<name>` when that is at most 128 UTF-8 bytes and the cluster
UID otherwise — but per-policy chain names are built from the raw namespace
and name with 9 bytes of decoration, so they exceed 128 bytes whenever the
namespace and name together exceed 119 bytes. -/
theorem C9_amended (ns nm uid : String) :
    (128 < ns.utf8ByteSize + 1 + nm.utf8ByteSize → objectID ns nm uid = uid) ∧
    (ns.utf8ByteSize + 1 + nm.utf8ByteSize ≤ 128 →
      objectID ns nm uid = ns ++ "_" ++ nm ∧
      (objectID ns nm uid).utf8ByteSize ≤ 128) ∧
    ("pol_" ++ ns ++ "_" ++ nm ++ "_ing").utf8ByteSize =
      ns.utf8ByteSize + nm.utf8ByteSize + 9 := by
  refine ⟨?_, ?_, ?_⟩
  · intro h
    unfold objectID
    rw [if_pos h]
  · intro h
    have he : objectID ns nm uid = ns ++ "_" ++ nm := by
      unfold objectID
      rw [if_neg (by omega)]
    refine ⟨he, ?_⟩
    rw [he, utf8ByteSize_append, utf8ByteSize_append]
    have h1 : ("_" : String).utf8ByteSize = 1 := rfl
    omega
  · rw [utf8ByteSize_append, utf8ByteSize_append, utf8ByteSize_append, utf8ByteSize_append]
    have h1 : ("pol_" : String).utf8ByteSize = 4 := rfl
    have h2 : ("_" : String).utf8ByteSize = 1 := rfl
    have h3 : ("_ing" : String).utf8ByteSize = 4 := rfl
    omega

def c10Rule : Rule :=
  { Namespace := "a", PodSelectors := [⟨Selector.reqs [], Selector.reqs []⟩],
    NamedPortSet := some "s" }

def c10Pod : Pod := { Namespace := "b", ID := "b_y", Labels := [], IPs := [],
                      NamedPorts := [] }

/-- C10: a pod whose namespace is absent from the controller's namespace
map is matched by no peer selector whatsoever, so a rule can include it
only through the no-selectors-with-named-port-set escape hatch. -/
theorem C10_missing_namespace (namespaces : List (String × Namespace)) (r : Rule)
    (pm : Pod) (sel : PodSelector) (selNs : String)
    (h : getA namespaces pm.Namespace = none) :
    PodSelector.Matches sel pm selNs namespaces = false ∧
    ruleSelectsPod namespaces r pm = (r.PodSelectors.isEmpty && r.NamedPortSet.isSome) := by
  have hm : ∀ (sel2 : PodSelector) (s2 : String),
      PodSelector.Matches sel2 pm s2 namespaces = false := by
    intro sel2 s2
    unfold PodSelector.Matches
    rw [h]
    split <;> rfl
  refine ⟨hm sel selNs, ?_⟩
  unfold ruleSelectsPod
  have ha : (r.PodSelectors.any fun sel2 =>
      PodSelector.Matches sel2 pm r.Namespace namespaces) = false := by
    simp only [List.any_eq_false]
    intro sel2 _
    simp [hm sel2 r.Namespace]
  rw [ha, Bool.false_or]

/-- C10, witness at an empty namespace map, a pod in namespace `b` and a
rule with one selector and a named-port set. -/
theorem C10_witness :
    PodSelector.Matches ⟨Selector.reqs [], Selector.reqs []⟩ c10Pod "a" [] = false ∧
    ruleSelectsPod [] c10Rule c10Pod =
      (c10Rule.PodSelectors.isEmpty && c10Rule.NamedPortSet.isSome) :=
  C10_missing_namespace [] c10Rule c10Pod ⟨Selector.reqs [], Selector.reqs []⟩ "a" rfl

end Nftctrl
